import Mathlib

/-!
Verification of the go-vba decompressor (`vba.go`).

The development shallowly embeds the decompression engine:
* `copyTokenHelp` — the variable-width copy-token split helper;
* `copyLoop` / `processItems` / `processGroups` / `uncompressChunk` — the
  chunk decoder `uncompressChunk` with its nested flag-bit loops;
* `carvVBA` — the signature carver;
* `uncompressDriver` / `ingestLoop` / `writeModel` — the streaming
  assembler `uncompress` and `Write`.

Byte buffers of the Go code are fixed 4098-byte arrays; they are embedded
as total functions `Nat → Nat` (reads beyond the filled region return the
stale cell content, exactly as in the Go arrays), with the filled sizes
`cSize`/`uSize` carried separately.  An index outside `[0, 4098)` would
panic in Go; the embedding returns the distinguished outcome `oob` at
exactly those accesses.  Loops whose Go termination argument is "the
cursor strictly advances" take an explicit fuel argument that the callers
instantiate large enough; exhaustion is the distinguished outcome
`fuelOut`.
-/

namespace GoVBA

/-- `VBABuffSize` from vba.go: max 4096 data + 2 header. -/
def VBABuffSize : Nat := 4098

/-- Fuel-structured ceiling base-2 logarithm (the fuel makes it
kernel-computable; `clog2Fuel_eq` shows it agrees with `Nat.clog 2`). -/
def clog2Fuel : Nat → Nat → Nat
  | 0, _ => 0
  | fuel + 1, n => if n ≤ 1 then 0 else clog2Fuel fuel ((n + 1) / 2) + 1

/-- `ceil (log2 n)`, structurally recursive; equals `Nat.clog 2 n`. -/
def clog2 (n : Nat) : Nat := clog2Fuel n n

theorem clog2Fuel_eq (fuel : Nat) : ∀ n, n ≤ fuel → clog2Fuel fuel n = Nat.clog 2 n := by
  induction fuel with
  | zero =>
    intro n hn
    have : n = 0 := by omega
    subst this
    simp [clog2Fuel, Nat.clog_of_right_le_one]
  | succ f ih =>
    intro n hn
    by_cases h1 : n ≤ 1
    · simp [clog2Fuel, h1, Nat.clog_of_right_le_one h1]
    · have h2 : 2 ≤ n := by omega
      rw [clog2Fuel, if_neg h1, Nat.clog_of_two_le (by norm_num) h2]
      have harg : n + 2 - 1 = n + 1 := by omega
      rw [harg]
      congr 1
      exact ih ((n + 1) / 2) (by omega)

theorem clog2_eq (n : Nat) : clog2 n = Nat.clog 2 n := clog2Fuel_eq n n (le_refl n)

/-- `copyTokenHelp(current, chunkStart)` from vba.go.  The Go code computes
`b := math.Ceil(math.Log2(float64(difference)))` in float64 and
`bitCount := uint16(math.Max(b, 4.0))`; for every value `difference` can
take (at most 4098, far below any float64 precision loss, and with
`Log2 0 = -Inf` collapsing to the max with 4) this equals
`max (ceil_log2 difference) 4`, embedded with the computable `clog2`
(equal to `Nat.clog 2` by `clog2_eq`). -/
def copyTokenHelp (current chunkStart : Nat) : Nat × Nat × Nat × Nat :=
  let difference := current - chunkStart
  let bitCount := max (clog2 difference) 4
  let lengthMask := 0xFFFF >>> bitCount
  let offsetMask := 0xFFFF ^^^ lengthMask
  let maximumLength := (0xFFFF >>> bitCount) + 3
  (lengthMask, offsetMask, bitCount, maximumLength)

/-- Error outcomes of the decode loops: an out-of-range buffer index
(a Go runtime panic) or fuel exhaustion (impossible for the fuel the
callers supply; kept explicit rather than proved away). -/
inductive DecErr
  | oob
  | fuelOut
deriving DecidableEq

/-- The inner byte-by-byte forward copy of a copy token
(`for index := copySource; ...` in `uncompressChunk`): repeatedly append
`out[src]` to `out`, `len` times.  The write target is `out.length`
(Go's `uSize`); writing at or beyond index 4098 panics in Go (`oob`).
The read index stays strictly below the write index, so reading from the
accumulated list is exact. -/
def copyLoop : List Nat → Nat → Nat → Except DecErr (List Nat)
  | out, _, 0 => .ok out
  | out, src, len + 1 =>
    if out.length < VBABuffSize then
      copyLoop (out ++ [out.getD src 0]) (src + 1) len
    else .error .oob

/-- The inner `for bitIndex = 0; bitIndex < 8; bitIndex++` loop of
`uncompressChunk`, processing the items of one flag byte.  The first
argument counts the remaining bits, so `bitIndex = 7 - rem` in the
successor case; the initial call passes `8`.  Items are skipped once the
cursor `cc` has reached `endPos` (the declared chunk end), exactly as in
the Go guard `if CompressedCurrent < CompressedEnd`. -/
def processItems (cbuf : Nat → Nat) (endPos flagByte : Nat) :
    Nat → Nat → List Nat → Except DecErr (Nat × List Nat)
  | 0, cc, out => .ok (cc, out)
  | rem + 1, cc, out =>
    if cc < endPos then
      if (flagByte >>> (7 - rem)) &&& 1 == 0 then
        if out.length < VBABuffSize then
          processItems cbuf endPos flagByte rem (cc + 1) (out ++ [cbuf cc])
        else .error .oob
      else
        let copyToken := cbuf cc + 256 * cbuf (cc + 1)
        let help := copyTokenHelp out.length 0
        let length := (copyToken &&& help.1) + 3
        let offset := ((copyToken &&& help.2.1) >>> (16 - help.2.2.1)) + 1
        if offset ≤ out.length then
          match copyLoop out (out.length - offset) length with
          | .ok out2 => processItems cbuf endPos flagByte rem (cc + 2) out2
          | .error e => .error e
        else .error .oob
    else processItems cbuf endPos flagByte rem cc out

/-- The outer `for CompressedCurrent < CompressedEnd` loop of
`uncompressChunk`: read a flag byte, process its up-to-8 items, repeat.
Each iteration advances the cursor by at least one, so fuel `endPos`
(supplied by `uncompressChunk`) always suffices. -/
def processGroups (cbuf : Nat → Nat) (endPos : Nat) :
    Nat → Nat → List Nat → Except DecErr (Nat × List Nat)
  | 0, _, _ => .error .fuelOut
  | fuel + 1, cc, out =>
    if cc < endPos then
      match processItems cbuf endPos (cbuf cc) 8 (cc + 1) out with
      | .ok (cc2, out2) => processGroups cbuf endPos fuel cc2 out2
      | .error e => .error e
    else .ok (cc, out)

/-- The 16-bit little-endian header read
`binary.LittleEndian.Uint16(vba.compressedBuffer[0:2])`. -/
def chunkHeader (cbuf : Nat → Nat) : Nat := cbuf 0 + 256 * cbuf 1

/-- `CompressedChunkFlag` = bit 15 of the header. -/
def chunkFlag (cbuf : Nat → Nat) : Nat := (chunkHeader cbuf >>> 15) &&& 1

/-- `CompressedChunkSignature` = bits 12–14 of the header. -/
def chunkSig (cbuf : Nat → Nat) : Nat := (chunkHeader cbuf >>> 12) &&& 7

/-- `CompressedChunkSize` = (header & 0x0FFF) + 3. -/
def chunkSize (cbuf : Nat → Nat) : Nat := (chunkHeader cbuf &&& 0x0FFF) + 3

/-- Result of one `uncompressChunk` call.  `insufficient` is Go's
`(0, nil)` "not enough data" return; `sigErr`/`sizeErr` are the two
`fmt.Errorf` returns; `ok consumed out` is the success return
`(CompressedCurrent, nil)` together with the decompressed bytes
`uncompressedBuffer[:uSize]`. -/
inductive ChunkResult
  | insufficient
  | sigErr
  | sizeErr
  | oob
  | fuelOut
  | ok (consumed : Nat) (out : List Nat)
deriving DecidableEq

/-- `uncompressChunk` from vba.go.  Note the Go order of checks: the
header is read (indices 0 and 1 of the buffer, regardless of `cSize`),
the signature is validated first, only then is the availability of the
declared `size` bytes checked, then the flag distinguishes the raw 4096
byte copy from the token stream. -/
def uncompressChunk (cbuf : Nat → Nat) (cSize : Nat) : ChunkResult :=
  if chunkSig cbuf ≠ 3 then .sigErr
  else if chunkSize cbuf > cSize then .insufficient
  else if chunkFlag cbuf == 0 then
    if chunkSize cbuf ≠ 4098 then .sizeErr
    else .ok 4098 ((List.range 4096).map fun i => cbuf (2 + i))
  else
    match processGroups cbuf (chunkSize cbuf) (chunkSize cbuf) 2 [] with
    | .ok (cc, out) => .ok cc out
    | .error .oob => .oob
    | .error .fuelOut => .fuelOut

/-! ## The streaming assembler state -/

/-- The `VBAWriter` state: the 4098-byte compressed accumulation array
(total function; cells beyond `cSize` hold stale bytes exactly like the
Go array), its fill `cSize`, the marker cursor and found flag, and the
bytes written so far to the downstream sink `wr` (modelled as a perfect
accumulating sink, so the short-write branch cannot fire). -/
structure VState where
  cbuf : Nat → Nat
  cSize : Nat
  mcur : Nat
  mfound : Bool
  output : List Nat

/-- Outcome of a `Write`/`uncompress` call: `ok` is a nil error return,
the rest are the fatal conditions (`negErr` is the
"Negativ copy size" error of `uncompress`). -/
inductive Outcome
  | ok
  | sigErr
  | sizeErr
  | negErr
  | oob
  | fuelOut
deriving DecidableEq

/-- The remaining-bytes shift
`copy(vba.compressedBuffer[0:copySize], vba.compressedBuffer[processed:vba.cSize])`:
cells below `copySize` take the shifted values, cells at and above keep
their old (now stale) content. -/
def shiftBuf (buf : Nat → Nat) (processed copySize : Nat) : Nat → Nat :=
  fun j => if j < copySize then buf (processed + j) else buf j

/-- The `uncompress` loop of vba.go: while `cSize > 0`, decode one chunk;
stop quietly on insufficient data; on success flush the decompressed
bytes downstream, check for a negative copy size, shift the leftover
bytes to the front and continue.  Every successful chunk consumes at
least 3 bytes, so fuel `cSize + 1` (what the callers pass) always
suffices. -/
def uncompressDriver : Nat → VState → VState × Outcome
  | 0, s => (s, .fuelOut)
  | fuel + 1, s =>
    if s.cSize == 0 then (s, .ok)
    else
      match uncompressChunk s.cbuf s.cSize with
      | .insufficient => (s, .ok)
      | .sigErr => (s, .sigErr)
      | .sizeErr => (s, .sizeErr)
      | .oob => (s, .oob)
      | .fuelOut => (s, .fuelOut)
      | .ok processed out =>
        let s1 : VState := { s with output := s.output ++ out }
        if processed > s1.cSize then (s1, .negErr)
        else
          let copySize := s1.cSize - processed
          uncompressDriver fuel
            { s1 with cbuf := shiftBuf s1.cbuf processed copySize, cSize := copySize }

/-! ## The signature carver -/

/-- The marker `[]byte("\x01..\x00Attribut")` (the two `.` are literal
0x2E bytes, but positions 1 and 2 are accepted unconditionally and never
compared). -/
def markerL : List Nat := [1, 46, 46, 0, 65, 116, 116, 114, 105, 98, 117, 116]

/-- The part of the `VBAWriter` state `carvVBA` touches. -/
structure CarveS where
  buf : Nat → Nat
  cSize : Nat
  cur : Nat

/-- Single-cell array write `buf[i] = v`. -/
def updFn (f : Nat → Nat) (i v : Nat) : Nat → Nat :=
  fun j => if j = i then v else f j

/-- `carvVBA` from vba.go.  Cursor positions 1 and 2 accept any byte and
append it; other positions compare against the marker byte, appending on
match (except that matching the leading 0x01 writes the byte at `cSize`
but does not advance `cSize`, excluding it from the buffer content) and
resetting cursor and buffer on mismatch (the mismatching byte is not
re-examined).  On a full match it returns the unconsumed remainder of the
input (Go returns the index `i+1`). -/
def carvVBA : CarveS → List Nat → CarveS × Option (List Nat)
  | s, [] => (s, none)
  | s, b :: rest =>
    let s' : CarveS :=
      if s.cur == 1 || s.cur == 2 then
        ⟨updFn s.buf s.cSize b, s.cSize + 1, s.cur + 1⟩
      else if b == markerL.getD s.cur 0 then
        ⟨updFn s.buf s.cSize b,
         if s.cur + 1 == 1 then s.cSize else s.cSize + 1, s.cur + 1⟩
      else ⟨s.buf, 0, 0⟩
    if s'.cur == markerL.length then (s', some rest) else carvVBA s' rest

/-! ## Write -/

/-- Bulk array write `copy(buf[start:start+src.length], src)`. -/
def writeRange (buf : Nat → Nat) (start : Nat) (src : List Nat) : Nat → Nat :=
  fun j => if start ≤ j ∧ j < start + src.length then src.getD (j - start) 0 else buf j

/-- The `for buffAvail > 0` loop of `Write`: copy
`min (VBABuffSize - cSize) (remaining input)` bytes into the accumulation
buffer, run `uncompress`, repeat.  Each iteration with a quiet buffer
consumes at least one input byte, so the fuel `2 * input.length + 2`
passed by `writeModel` always suffices. -/
def ingestLoop : Nat → VState → List Nat → VState × Outcome
  | 0, s, _ => (s, .fuelOut)
  | fuel + 1, s, input =>
    if input.length == 0 then (s, .ok)
    else
      let n := min (VBABuffSize - s.cSize) input.length
      let s1 : VState :=
        { s with cbuf := writeRange s.cbuf s.cSize (input.take n), cSize := s.cSize + n }
      match uncompressDriver (s1.cSize + 1) s1 with
      | (s2, .ok) => ingestLoop fuel s2 (input.drop n)
      | (s2, e) => (s2, e)

/-- `Write` from vba.go: while the marker has not been found, run the
carver (consuming the whole input if the marker does not complete);
once it is found, ingest the remaining bytes through the accumulation
buffer and the `uncompress` loop. -/
def writeModel (s : VState) (b : List Nat) : VState × Outcome :=
  if s.mfound then ingestLoop (2 * b.length + 2) s b
  else
    match carvVBA ⟨s.cbuf, s.cSize, s.mcur⟩ b with
    | (cs, none) => ({ s with cbuf := cs.buf, cSize := cs.cSize, mcur := cs.cur }, .ok)
    | (cs, some rest) =>
      ingestLoop (2 * rest.length + 2)
        { s with cbuf := cs.buf, cSize := cs.cSize, mcur := cs.cur, mfound := true } rest

/-- The state `NewWriter` builds: zeroed buffers, no marker progress. -/
def initS : VState := ⟨fun _ => 0, 0, 0, false, []⟩

/-- One single-byte `Write` call (state part). -/
def feed1 (s : VState) (x : Nat) : VState := (writeModel s [x]).1

/-- Buffer content: the filled cells `buf[0:cSize]` as a list. -/
def bufBytes (buf : Nat → Nat) (cSize : Nat) : List Nat :=
  (List.range cSize).map buf

/-! ## The copy-token split (claim C1) -/

/-- The 16-bit little-endian copy token read at compressed position `cc`. -/
def tokenOf (cbuf : Nat → Nat) (cc : Nat) : Nat := cbuf cc + 256 * cbuf (cc + 1)

/-- Bit count `b = max(ceil(log2(difference)), 4)` as the spec states it. -/
def bitCountAt (difference : Nat) : Nat := max (Nat.clog 2 difference) 4

/-- The spec's length field: the token's low `16 - b` bits plus 3. -/
def tokenLength (t current : Nat) : Nat := t % 2 ^ (16 - bitCountAt current) + 3

/-- The spec's offset field: the token's high `b` bits plus 1. -/
def tokenOffset (t current : Nat) : Nat := t / 2 ^ (16 - bitCountAt current) + 1

theorem ffff_eq : (0xFFFF : Nat) = 2 ^ 16 - 1 := by norm_num

/-- `0xFFFF >>> b` is the low-`16 - b`-bits mask. -/
theorem lengthMask_eq {b : Nat} (hb : b ≤ 16) :
    (0xFFFF : Nat) >>> b = 2 ^ (16 - b) - 1 := by
  apply Nat.eq_of_testBit_eq
  intro j
  rw [Nat.testBit_shiftRight, ffff_eq, Nat.testBit_two_pow_sub_one,
    Nat.testBit_two_pow_sub_one]
  by_cases h : b + j < 16
  · have : j < 16 - b := by omega
    simp [h, this]
  · have : ¬ j < 16 - b := by omega
    simp [h, this]

/-- Masking with the low mask extracts the low bits: `t &&& lengthMask`
is `t % 2 ^ (16 - b)`. -/
theorem and_lengthMask_eq {t b : Nat} (hb : b ≤ 16) :
    t &&& ((0xFFFF : Nat) >>> b) = t % 2 ^ (16 - b) := by
  rw [lengthMask_eq hb, Nat.and_pow_two_sub_one_eq_mod]

/-- Masking with the complement mask and shifting extracts the high bits:
for a 16-bit token `t`, `(t &&& offsetMask) >>> (16 - b)` is
`t / 2 ^ (16 - b)`. -/
theorem and_offsetMask_shift_eq {t b : Nat} (ht : t < 2 ^ 16) (hb : b ≤ 16) :
    (t &&& ((0xFFFF : Nat) ^^^ ((0xFFFF : Nat) >>> b))) >>> (16 - b) =
      t / 2 ^ (16 - b) := by
  have hk : 16 - b ≤ 16 := by omega
  rw [← Nat.shiftRight_eq_div_pow]
  apply Nat.eq_of_testBit_eq
  intro j
  rw [Nat.testBit_shiftRight, Nat.testBit_shiftRight, Nat.testBit_and,
    Nat.testBit_xor, lengthMask_eq hb, ffff_eq, Nat.testBit_two_pow_sub_one,
    Nat.testBit_two_pow_sub_one]
  by_cases h : 16 - b + j < 16
  · have h2 : ¬ (16 - b + j < 16 - b) := by omega
    simp [h, h2]
  · have h3 : t.testBit (16 - b + j) = false :=
      Nat.testBit_lt_two_pow (lt_of_lt_of_le ht (Nat.pow_le_pow_right (by norm_num) (by omega)))
    simp [h, h3]

/-- The bit count stays at most 12 while the decompressed cursor is in
the 4096-byte window, so `16 - b` is well behaved. -/
theorem bitCountAt_le {current : Nat} (h : current ≤ 4096) : bitCountAt current ≤ 16 := by
  unfold bitCountAt
  have h1 : Nat.clog 2 current ≤ Nat.clog 2 4096 := Nat.clog_mono_right 2 h
  have h2 : Nat.clog 2 4096 = 12 := by
    have : (4096 : Nat) = 2 ^ 12 := by norm_num
    rw [this, Nat.clog_pow 2 12 (by norm_num)]
  omega

/-- Claim C1: for every copy token decoded at decompressed position
`out.length` within a chunk (the chunk start is 0: `uncompressChunk`
resets `uSize` to 0 before decoding), the decoder splits the token using
bit count `b = max(ceil(log2 difference), 4)` recomputed from the current
decompressed length: the length is the token's low `16 - b` bits plus 3
and the offset is its high `b` bits plus 1, and the token is then
expanded by the forward byte copy `copyLoop`. -/
theorem c1_copy_token_split (cbuf : Nat → Nat) (endPos flagByte rem cc : Nat)
    (out : List Nat) (hcc : cc < endPos)
    (hbit : (flagByte >>> (7 - rem)) &&& 1 = 1)
    (hb0 : cbuf cc < 256) (hb1 : cbuf (cc + 1) < 256)
    (hcur : out.length ≤ 4096) :
    processItems cbuf endPos flagByte (rem + 1) cc out =
      if tokenOffset (tokenOf cbuf cc) out.length ≤ out.length then
        match copyLoop out (out.length - tokenOffset (tokenOf cbuf cc) out.length)
            (tokenLength (tokenOf cbuf cc) out.length) with
        | .ok out2 => processItems cbuf endPos flagByte rem (cc + 2) out2
        | .error e => .error e
      else .error .oob := by
  have h65536 : (2 : Nat) ^ 16 = 65536 := by norm_num
  have ht : cbuf cc + 256 * cbuf (cc + 1) < 2 ^ 16 := by rw [h65536]; omega
  have hb : max (Nat.clog 2 out.length) 4 ≤ 16 := bitCountAt_le hcur
  have hbitf : ((flagByte >>> (7 - rem)) &&& 1 == 0) = false := by
    simp [hbit]
  simp only [processItems, hbitf, if_pos hcc, Bool.false_eq_true, if_false,
    copyTokenHelp, Nat.sub_zero, clog2_eq]
  rw [and_lengthMask_eq hb, and_offsetMask_shift_eq ht hb]
  simp only [tokenOffset, tokenLength, tokenOf, bitCountAt]

/-- Witness for C1 at a concrete token. -/
theorem c1_copy_token_split_witness :
    processItems (fun _ => 0) 5 1 8 3 [9] =
      if tokenOffset (tokenOf (fun _ => 0) 3) (List.length [9]) ≤ List.length [9] then
        match copyLoop [9]
            (List.length [9] - tokenOffset (tokenOf (fun _ => 0) 3) (List.length [9]))
            (tokenLength (tokenOf (fun _ => 0) 3) (List.length [9])) with
        | .ok out2 => processItems (fun _ => 0) 5 1 7 5 out2
        | .error e => .error e
      else .error .oob :=
  c1_copy_token_split (fun _ => 0) 5 1 7 3 [9] (by decide) (by decide)
    (by decide) (by decide) (by decide)

/-! ## Insufficient data (claim C4) -/

/-- Counterexample to claim C4: an accumulation buffer holding 2 bytes
`[0x03, 0x00]` — fewer than the declared chunk size 6 — does not signal
insufficient data: because `uncompressChunk` validates the signature
before checking availability, the decode attempt reports the fatal
signature-mismatch error. -/
theorem c4_counterexample :
    chunkSize (fun i => if i = 0 then 3 else 0) = 6 ∧
    2 < chunkSize (fun i => if i = 0 then 3 else 0) ∧
    uncompressChunk (fun i => if i = 0 then 3 else 0) 2 = .sigErr := by
  decide

/-- Claim C4 amended: for every accumulation-buffer state holding fewer
than the declared chunk size bytes *whose (possibly partially stale)
header carries signature bits 0b011*, a chunk-decode attempt signals
insufficient data as a non-error: the decoder returns the non-error
`insufficient` result and the `uncompress` driver stops with a nil error,
zero bytes consumed and zero bytes produced, leaving the whole state —
buffered bytes included — unchanged for the next write call. -/
theorem c4_insufficient_data (s : VState) (fuel : Nat)
    (hsig : chunkSig s.cbuf = 3) (hsz : s.cSize < chunkSize s.cbuf) :
    uncompressChunk s.cbuf s.cSize = .insufficient ∧
    uncompressDriver (fuel + 1) s = (s, .ok) := by
  have h1 : uncompressChunk s.cbuf s.cSize = .insufficient := by
    unfold uncompressChunk
    rw [if_neg (by simp [hsig]), if_pos hsz]
  refine ⟨h1, ?_⟩
  unfold uncompressDriver
  by_cases h0 : s.cSize = 0
  · simp [h0]
  · simp [h0, h1]

/-- Witness for C4 amended: one buffered byte of a chunk whose stale
second header byte is 0x30 (signature bits 0b011). -/
theorem c4_insufficient_data_witness :
    uncompressChunk (fun i => if i = 1 then 48 else 0) 1 = .insufficient ∧
    uncompressDriver 6 ⟨fun i => if i = 1 then 48 else 0, 1, 0, true, []⟩ =
      (⟨fun i => if i = 1 then 48 else 0, 1, 0, true, []⟩, .ok) :=
  c4_insufficient_data ⟨fun i => if i = 1 then 48 else 0, 1, 0, true, []⟩ 5
    (by decide) (by decide)

/-! ## Signature mismatch (claim C9) -/

/-- Claim C9: a chunk header whose signature bits (12–14) differ from
0b011 makes `uncompressChunk` return the fatal "chunk signature
missmatch" error, and the `uncompress` driver stops immediately with that
error and an unchanged state — no bytes are consumed, nothing is flushed,
and no further chunk is attempted; `Write` then propagates the error to
the caller. -/
theorem c9_sig_mismatch (s : VState) (fuel : Nat) (h0 : 0 < s.cSize)
    (hsig : chunkSig s.cbuf ≠ 3) :
    uncompressChunk s.cbuf s.cSize = .sigErr ∧
    uncompressDriver (fuel + 1) s = (s, .sigErr) := by
  have h1 : uncompressChunk s.cbuf s.cSize = .sigErr := by
    unfold uncompressChunk
    rw [if_pos hsig]
  refine ⟨h1, ?_⟩
  unfold uncompressDriver
  have h0' : ¬ s.cSize = 0 := by omega
  simp [h0', h1]

/-- Witness for C9: a zeroed header (signature bits 0). -/
theorem c9_sig_mismatch_witness :
    uncompressChunk (fun _ => 0) 2 = .sigErr ∧
    uncompressDriver 8 ⟨fun _ => 0, 2, 0, true, []⟩ =
      (⟨fun _ => 0, 2, 0, true, []⟩, .sigErr) :=
  c9_sig_mismatch ⟨fun _ => 0, 2, 0, true, []⟩ 7 (by decide) (by decide)

/-! ## Raw (compressedFlag = 0) chunks (claim C6) -/

/-- Claim C6: for a chunk with compressedFlag 0 whose declared size is
fully buffered, decoding fails with the fatal size-mismatch error unless
the declared size is exactly 4098, in which case the 4096 bytes following
the 2-byte header are output unchanged and 4098 bytes are consumed. -/
theorem c6_raw_chunk (cbuf : Nat → Nat) (cSize : Nat)
    (hsig : chunkSig cbuf = 3) (hflag : chunkFlag cbuf = 0)
    (havail : chunkSize cbuf ≤ cSize) :
    uncompressChunk cbuf cSize =
      if chunkSize cbuf = 4098 then
        .ok 4098 ((List.range 4096).map fun i => cbuf (2 + i))
      else .sizeErr := by
  unfold uncompressChunk
  rw [if_neg (by simp [hsig]), if_neg (by omega), if_pos (by simp [hflag])]
  by_cases h : chunkSize cbuf = 4098 <;> simp [h]

/-- Witness for C6: a full-size raw chunk (header 0x3FFF) whose 4096 data
bytes are copied through unchanged. -/
theorem c6_raw_chunk_witness :
    uncompressChunk (fun i => if i = 0 then 255 else if i = 1 then 63 else i % 251) 4098 =
      if chunkSize (fun i => if i = 0 then 255 else if i = 1 then 63 else i % 251) = 4098 then
        .ok 4098 ((List.range 4096).map fun i =>
          (fun i => if i = 0 then 255 else if i = 1 then 63 else i % 251) (2 + i))
      else .sizeErr :=
  c6_raw_chunk (fun i => if i = 0 then 255 else if i = 1 then 63 else i % 251) 4098
    (by decide) (by decide) (by decide)

/-! ## Self-overlapping copy (claim C5) -/

theorem getD_replicate {k n : Nat} (c d : Nat) (h : k < n) :
    (List.replicate n c).getD k d = c := by
  induction k generalizing n with
  | zero =>
    cases n with
    | zero => omega
    | succ m => simp [List.replicate_succ]
  | succ j ih =>
    cases n with
    | zero => omega
    | succ m =>
      rw [List.replicate_succ]
      simpa using ih (by omega)

/-- An offset-1 forward copy over a run of a single repeated byte keeps
reading the byte it has just written: it extends the run one byte at a
time. -/
theorem copyLoop_replicate (c : Nat) :
    ∀ len k, k + 1 + len ≤ VBABuffSize →
    copyLoop (List.replicate (k + 1) c) k len = .ok (List.replicate (k + 1 + len) c) := by
  intro len
  induction len with
  | zero => intro k _; rfl
  | succ m ih =>
    intro k hk
    rw [copyLoop]
    have hlen : (List.replicate (k + 1) c).length < VBABuffSize := by
      simp [List.length_replicate]; unfold VBABuffSize at hk ⊢; omega
    rw [if_pos hlen, getD_replicate c 0 (by simp [List.length_replicate])]
    rw [← List.replicate_succ' (n := k + 1)]
    have := ih (k + 1) (by omega)
    rw [this]
    congr 1
    congr 1
    omega

/-- The compressed buffer of the C5 chunk: header 0xB003 (compressed,
signature 3, size 6), flag byte 0x02 (one literal then one copy token),
the literal byte `c`, and the copy token `t` (little endian). -/
def c5buf (c t : Nat) : Nat → Nat := fun i =>
  if i = 0 then 3 else if i = 1 then 176 else if i = 2 then 2
  else if i = 3 then c else if i = 4 then t % 256 else if i = 5 then t / 256 else 0

/-! Small-step characterizations of the decode loops, used throughout. -/

theorem processItems_zero (cbuf : Nat → Nat) (endPos fb cc : Nat) (out : List Nat) :
    processItems cbuf endPos fb 0 cc out = .ok (cc, out) := rfl

/-- Once the cursor has reached the declared chunk end, the remaining
flag bits are skipped. -/
theorem processItems_skip (cbuf : Nat → Nat) (endPos fb : Nat) :
    ∀ rem cc out, ¬ cc < endPos →
    processItems cbuf endPos fb rem cc out = .ok (cc, out) := by
  intro rem
  induction rem with
  | zero => intro cc out _; rfl
  | succ m ih =>
    intro cc out h
    simp only [processItems, if_neg h]
    exact ih cc out h

/-- A 0 flag bit copies one literal byte. -/
theorem processItems_literal (cbuf : Nat → Nat) (endPos fb rem cc : Nat) (out : List Nat)
    (hcc : cc < endPos) (hbit : (fb >>> (7 - rem)) &&& 1 = 0)
    (hout : out.length < VBABuffSize) :
    processItems cbuf endPos fb (rem + 1) cc out =
      processItems cbuf endPos fb rem (cc + 1) (out ++ [cbuf cc]) := by
  simp only [processItems, hbit, if_pos hcc, beq_self_eq_true, if_true, if_pos hout]

theorem processGroups_step (cbuf : Nat → Nat) (endPos fuel cc : Nat) (out : List Nat)
    (hcc : cc < endPos) :
    processGroups cbuf endPos (fuel + 1) cc out =
      match processItems cbuf endPos (cbuf cc) 8 (cc + 1) out with
      | .ok (cc2, out2) => processGroups cbuf endPos fuel cc2 out2
      | .error e => .error e := by
  simp only [processGroups, if_pos hcc]

theorem processGroups_done (cbuf : Nat → Nat) (endPos fuel cc : Nat) (out : List Nat)
    (hcc : ¬ cc < endPos) :
    processGroups cbuf endPos (fuel + 1) cc out = .ok (cc, out) := by
  simp only [processGroups, if_neg hcc]

/-- Claim C5: a compressed chunk consisting of a literal byte followed by
a copy token with offset 1 and length `t + 3` decodes to the literal byte
followed by that many copies of it — the self-overlapping forward copy
reads bytes written by the same copy operation.  (`t = 7` is the spec's
offset=1, length=10 example.) -/
theorem c5_overlap_copy (c t : Nat) (ht : t ≤ 4094) :
    uncompressChunk (c5buf c t) 6 = .ok 6 (List.replicate (t + 4) c) := by
  have hmod : t % 256 + 256 * (t / 256) = t := Nat.mod_add_div t 256
  have hsig : chunkSig (c5buf c t) = 3 := by simp [chunkSig, chunkHeader, c5buf]; decide
  have hsize : chunkSize (c5buf c t) = 6 := by simp [chunkSize, chunkHeader, c5buf]; decide
  have hflag : chunkFlag (c5buf c t) = 1 := by simp [chunkFlag, chunkHeader, c5buf]
  have hb4 : c5buf c t 4 < 256 := by
    show t % 256 < 256
    exact Nat.mod_lt _ (by norm_num)
  have hb5 : c5buf c t 5 < 256 := by
    show t / 256 < 256
    omega
  have htok : tokenOf (c5buf c t) 4 = t := by
    show c5buf c t 4 + 256 * c5buf c t 5 = t
    show t % 256 + 256 * (t / 256) = t
    exact hmod
  have hbca : bitCountAt 1 = 4 := by simp [bitCountAt, Nat.clog_one_right]
  have hlen : tokenLength t 1 = t + 3 := by
    rw [tokenLength, hbca, Nat.mod_eq_of_lt (by norm_num; omega)]
  have hoff : tokenOffset t 1 = 1 := by
    rw [tokenOffset, hbca, Nat.div_eq_of_lt (by norm_num; omega)]
  have hcopy : copyLoop [c] 0 (t + 3) = .ok (List.replicate (t + 4) c) := by
    have h := copyLoop_replicate c (t + 3) 0 (by unfold VBABuffSize; omega)
    rw [show (0 + 1 + (t + 3)) = t + 4 by omega] at h
    rw [show List.replicate 1 c = [c] from rfl] at h
    exact h
  have hI : processItems (c5buf c t) 6 2 8 3 [] = .ok (6, List.replicate (t + 4) c) := by
    rw [processItems_literal (c5buf c t) 6 2 7 3 [] (by omega) (by decide) (by decide)]
    rw [show ([] ++ [c5buf c t 3]) = [c] from rfl]
    rw [c1_copy_token_split (c5buf c t) 6 2 6 4 [c] (by omega) (by decide) hb4 hb5 (by simp)]
    rw [htok]
    rw [show List.length [c] = 1 from rfl]
    rw [hlen, hoff]
    rw [if_pos (le_refl 1), show (1 - 1 : Nat) = 0 from rfl, hcopy]
    exact processItems_skip (c5buf c t) 6 2 6 6 _ (by omega)
  have hG : processGroups (c5buf c t) 6 6 2 [] = .ok (6, List.replicate (t + 4) c) := by
    rw [processGroups_step (c5buf c t) 6 5 2 [] (by omega)]
    rw [show c5buf c t 2 = 2 from rfl]
    rw [hI]
    exact processGroups_done (c5buf c t) 6 4 6 _ (by omega)
  rw [uncompressChunk, hsig, hsize, hflag]
  rw [if_neg (by simp), if_neg (by omega)]
  simp only [show ((1 : Nat) == 0) = false from rfl, Bool.false_eq_true, if_false]
  rw [hG]

/-- Witness for C5: the spec's example — one literal byte then a copy
token with offset 1 and length 10 yields 11 repetitions. -/
theorem c5_overlap_copy_witness :
    uncompressChunk (c5buf 65 7) 6 = .ok 6 (List.replicate 11 65) :=
  c5_overlap_copy 65 7 (by decide)

/-! ## Consumed bytes versus declared size (claim C2) -/

/-- The cursor never moves backwards through the items of a flag byte. -/
theorem processItems_cc_le (cbuf : Nat → Nat) (endPos fb : Nat) :
    ∀ rem cc out cc2 out2,
    processItems cbuf endPos fb rem cc out = .ok (cc2, out2) → cc ≤ cc2 := by
  intro rem
  induction rem with
  | zero =>
    intro cc out cc2 out2 h
    simp only [processItems_zero, Except.ok.injEq, Prod.mk.injEq] at h
    omega
  | succ rem ih =>
    intro cc out cc2 out2 h
    rw [processItems] at h
    by_cases hcc : cc < endPos
    · rw [if_pos hcc] at h
      by_cases hbit : ((fb >>> (7 - rem)) &&& 1 == 0) = true
      · rw [if_pos hbit] at h
        by_cases hout : out.length < VBABuffSize
        · rw [if_pos hout] at h
          have := ih _ _ _ _ h
          omega
        · rw [if_neg hout] at h
          exact absurd h (by simp)
      · rw [if_neg hbit] at h
        dsimp only at h
        split at h
        · split at h
          · have := ih _ _ _ _ h
            omega
          · exact absurd h (by simp)
        · exact absurd h (by simp)
    · rw [if_neg hcc] at h
      exact ih _ _ _ _ h

/-- Through the items of one flag byte the cursor overshoots the declared
chunk end by at most one byte (a copy token whose first byte sits at
`endPos - 1` is still read whole). -/
theorem processItems_cc_bound (cbuf : Nat → Nat) (endPos fb : Nat) :
    ∀ rem cc out cc2 out2, cc ≤ endPos + 1 →
    processItems cbuf endPos fb rem cc out = .ok (cc2, out2) → cc2 ≤ endPos + 1 := by
  intro rem
  induction rem with
  | zero =>
    intro cc out cc2 out2 hin h
    simp only [processItems_zero, Except.ok.injEq, Prod.mk.injEq] at h
    omega
  | succ rem ih =>
    intro cc out cc2 out2 hin h
    rw [processItems] at h
    by_cases hcc : cc < endPos
    · rw [if_pos hcc] at h
      by_cases hbit : ((fb >>> (7 - rem)) &&& 1 == 0) = true
      · rw [if_pos hbit] at h
        by_cases hout : out.length < VBABuffSize
        · rw [if_pos hout] at h
          exact ih _ _ _ _ (by omega) h
        · rw [if_neg hout] at h
          exact absurd h (by simp)
      · rw [if_neg hbit] at h
        dsimp only at h
        split at h
        · split at h
          · exact ih _ _ _ _ (by omega) h
          · exact absurd h (by simp)
        · exact absurd h (by simp)
    · rw [if_neg hcc] at h
      exact ih _ _ _ _ hin h

/-- A successful group loop run ends with the cursor at the declared end
or one past it. -/
theorem processGroups_exit (cbuf : Nat → Nat) (endPos : Nat) :
    ∀ fuel cc out cc2 out2, cc ≤ endPos + 1 →
    processGroups cbuf endPos fuel cc out = .ok (cc2, out2) →
    endPos ≤ cc2 ∧ cc2 ≤ endPos + 1 := by
  intro fuel
  induction fuel with
  | zero =>
    intro cc out cc2 out2 _ h
    exact absurd h (by simp [processGroups])
  | succ fuel ih =>
    intro cc out cc2 out2 hin h
    rw [processGroups] at h
    by_cases hcc : cc < endPos
    · rw [if_pos hcc] at h
      split at h
      · rename_i ccI outI heq
        exact ih _ _ _ _ (processItems_cc_bound cbuf endPos _ _ _ _ _ _ (by omega) heq) h
      · exact absurd h (by simp)
    · rw [if_neg hcc] at h
      simp only [Except.ok.injEq, Prod.mk.injEq] at h
      omega

/-- Counterexample to claim C2: declared chunk size 5, but the final copy
token's first byte sits at the last declared position, its second byte is
read from beyond the declared end, and the reported consumed count is 6 —
one more than the declared size. -/
def c2buf : Nat → Nat := fun i =>
  if i = 0 then 2 else if i = 1 then 176 else if i = 2 then 2 else if i = 3 then 7 else 0

theorem c2_counterexample :
    chunkSize c2buf = 5 ∧ uncompressChunk c2buf 5 = .ok 6 [7, 7, 7, 7] := by
  decide

/-- Claim C2 amended: a successful chunk decode consumes at least the
declared size and at most the declared size plus one (the excess case
being a final copy token that straddles the declared chunk end); a
compressedFlag-0 chunk consumes exactly its declared size 4098 and
produces exactly 4096 bytes.  The produced byte count of a
compressedFlag-1 chunk is whatever the token stream generates — the code
does not enforce 4096. -/
theorem c2_consumed_bounds (cbuf : Nat → Nat) (cSize consumed : Nat) (out : List Nat)
    (h : uncompressChunk cbuf cSize = .ok consumed out) :
    chunkSize cbuf ≤ consumed ∧ consumed ≤ chunkSize cbuf + 1 ∧
    (chunkFlag cbuf = 0 → consumed = chunkSize cbuf ∧ out.length = 4096) := by
  rw [uncompressChunk] at h
  by_cases hsig : chunkSig cbuf ≠ 3
  · rw [if_pos hsig] at h
    exact absurd h (by simp)
  rw [if_neg hsig] at h
  by_cases havail : chunkSize cbuf > cSize
  · rw [if_pos havail] at h
    exact absurd h (by simp)
  rw [if_neg havail] at h
  by_cases hflag : (chunkFlag cbuf == 0) = true
  · rw [if_pos hflag] at h
    by_cases hsz : chunkSize cbuf ≠ 4098
    · rw [if_pos hsz] at h
      exact absurd h (by simp)
    · rw [if_neg hsz] at h
      simp only [Except.ok.injEq, ChunkResult.ok.injEq] at h
      obtain ⟨hc, hout⟩ := h
      refine ⟨by omega, by omega, fun _ => ⟨by omega, ?_⟩⟩
      rw [← hout]
      simp
  · rw [if_neg hflag] at h
    split at h
    · rename_i cc2 out2 heq
      have hb := processGroups_exit cbuf (chunkSize cbuf) (chunkSize cbuf) 2 [] cc2 out2
        (by unfold chunkSize; omega) heq
      simp only [ChunkResult.ok.injEq] at h
      obtain ⟨hc, -⟩ := h
      refine ⟨by omega, by omega, fun h0 => ?_⟩
      rw [h0] at hflag
      simp at hflag
    · exact absurd h (by simp)
    · exact absurd h (by simp)

/-- Witness for C2 amended at the straddling chunk: 5 ≤ 6 ≤ 5 + 1. -/
theorem c2_consumed_bounds_witness :
    chunkSize c2buf ≤ 6 ∧ 6 ≤ chunkSize c2buf + 1 ∧
    (chunkFlag c2buf = 0 → 6 = chunkSize c2buf ∧ List.length [7, 7, 7, 7] = 4096) :=
  c2_consumed_bounds c2buf 5 6 [7, 7, 7, 7] (by decide)

/-! ## Copy-token window safety (claim C3) -/

/-- Counterexample to claim C3: a chunk whose very first item is a copy
token.  Zero bytes have been produced in the chunk, yet the token's
offset is at least 1, so the Go code computes the read index
`uSize - offset = -1` and panics with an out-of-range access: the decoder
does not validate the back-reference window. -/
def c3buf : Nat → Nat := fun i =>
  if i = 0 then 2 else if i = 1 then 176 else if i = 2 then 1 else 0

theorem c3_counterexample : uncompressChunk c3buf 5 = .oob := by decide

/-- A forward copy that fits in the buffer succeeds and extends the
output by exactly `len` bytes. -/
theorem copyLoop_ok :
    ∀ len out src, out.length + len ≤ VBABuffSize →
    ∃ out2, copyLoop out src len = .ok out2 ∧ out2.length = out.length + len := by
  intro len
  induction len with
  | zero => intro out src _; exact ⟨out, rfl, by omega⟩
  | succ m ih =>
    intro out src hfit
    rw [copyLoop, if_pos (by unfold VBABuffSize at hfit ⊢; omega)]
    obtain ⟨out2, heq, hlen⟩ := ih (out ++ [out.getD src 0]) (src + 1) (by simp; omega)
    refine ⟨out2, heq, ?_⟩
    simp at hlen
    omega

/-- Claim C3 amended: the decoder never checks the back-reference window
itself.  A copy token whose offset is within the bytes already produced
in the chunk, and whose expansion fits the 4098-byte buffer, is copied
without any out-of-bounds access; a token whose offset exceeds the bytes
already produced makes the decode step fail with the out-of-range access
`oob` (the Go runtime panic).  Offsets are always at least 1 by
construction. -/
theorem c3_window_guard (cbuf : Nat → Nat) (endPos fb rem cc : Nat) (out : List Nat)
    (hcc : cc < endPos) (hbit : (fb >>> (7 - rem)) &&& 1 = 1)
    (hb0 : cbuf cc < 256) (hb1 : cbuf (cc + 1) < 256) (hcur : out.length ≤ 4096) :
    1 ≤ tokenOffset (tokenOf cbuf cc) out.length ∧
    (tokenOffset (tokenOf cbuf cc) out.length ≤ out.length →
      out.length + tokenLength (tokenOf cbuf cc) out.length ≤ VBABuffSize →
      ∃ out2,
        copyLoop out (out.length - tokenOffset (tokenOf cbuf cc) out.length)
            (tokenLength (tokenOf cbuf cc) out.length) = .ok out2 ∧
        out2.length = out.length + tokenLength (tokenOf cbuf cc) out.length ∧
        processItems cbuf endPos fb (rem + 1) cc out =
          processItems cbuf endPos fb rem (cc + 2) out2) ∧
    (out.length < tokenOffset (tokenOf cbuf cc) out.length →
      processItems cbuf endPos fb (rem + 1) cc out = .error .oob) := by
  have hsplit := c1_copy_token_split cbuf endPos fb rem cc out hcc hbit hb0 hb1 hcur
  refine ⟨by unfold tokenOffset; exact Nat.le_add_left 1 _, ?_, ?_⟩
  · intro hin hfit
    obtain ⟨out2, heq, hlen⟩ :=
      copyLoop_ok (tokenLength (tokenOf cbuf cc) out.length) out
        (out.length - tokenOffset (tokenOf cbuf cc) out.length) hfit
    refine ⟨out2, heq, hlen, ?_⟩
    rw [hsplit, if_pos hin, heq]
  · intro hout
    rw [hsplit, if_neg (by omega)]

/-- Witness for C3 amended: the in-window token of the C5 example chunk
(offset 1 over one produced byte, expansion length 10). -/
theorem c3_window_guard_witness :
    1 ≤ tokenOffset (tokenOf (c5buf 65 7) 4) (List.length [65]) ∧
    (tokenOffset (tokenOf (c5buf 65 7) 4) (List.length [65]) ≤ List.length [65] →
      List.length [65] + tokenLength (tokenOf (c5buf 65 7) 4) (List.length [65]) ≤ VBABuffSize →
      ∃ out2,
        copyLoop [65] (List.length [65] - tokenOffset (tokenOf (c5buf 65 7) 4) (List.length [65]))
            (tokenLength (tokenOf (c5buf 65 7) 4) (List.length [65])) = .ok out2 ∧
        out2.length = List.length [65] + tokenLength (tokenOf (c5buf 65 7) 4) (List.length [65]) ∧
        processItems (c5buf 65 7) 6 2 (6 + 1) 4 [65] =
          processItems (c5buf 65 7) 6 2 6 6 out2) ∧
    (List.length [65] < tokenOffset (tokenOf (c5buf 65 7) 4) (List.length [65]) →
      processItems (c5buf 65 7) 6 2 (6 + 1) 4 [65] = .error .oob) :=
  c3_window_guard (c5buf 65 7) 6 2 6 4 [65] (by decide) (by decide) (by decide)
    (by decide) (by decide)

/-! ## Marker carving (claim C7) -/

/-- A byte that is not the marker-start byte 0x01 leaves the idle carver
exactly where it was: cursor 0, buffer empty, buffer cells untouched. -/
theorem carve_garbage (G : List Nat) (hG : ∀ b ∈ G, b ≠ 1) :
    ∀ buf rest, carvVBA ⟨buf, 0, 0⟩ (G ++ rest) = carvVBA ⟨buf, 0, 0⟩ rest := by
  induction G with
  | nil => intro buf rest; rfl
  | cons g G ih =>
    intro buf rest
    have hg : g ≠ 1 := hG g (by simp)
    have hbeq : (g == markerL.getD 0 0) = false := by
      simp [markerL, hg]
    rw [List.cons_append, carvVBA]
    simp only [hbeq, Bool.false_eq_true, if_false]
    exact ih (fun b hb => hG b (by simp [hb])) buf rest

/-- Running the carver from a marker-shaped intermediate state: when the
full marker is confirmed, the accumulation buffer holds exactly 11 bytes,
and the cells from index 2 on hold the fixed marker-tail bytes
`0x00 "Attribut"` (cells 0 and 1 hold the two wildcard bytes). -/
theorem carve_run (input : List Nat) : ∀ s s' rest,
    (s.cur = 0 → s.cSize = 0) → (s.cur ≠ 0 → s.cSize + 1 = s.cur) → s.cur < 12 →
    (∀ j, 2 ≤ j → j < s.cSize → s.buf j = markerL.getD (j + 1) 0) →
    carvVBA s input = (s', some rest) →
    s'.cur = 12 ∧ s'.cSize = 11 ∧
    (∀ j, 2 ≤ j → j < 11 → s'.buf j = markerL.getD (j + 1) 0) := by
  induction input with
  | nil =>
    intro s s' rest _ _ _ _ h
    exact absurd h (by simp [carvVBA])
  | cons b input ih =>
    intro s s' rest h0 h1 h2 h3 h
    rw [carvVBA] at h
    by_cases hA : (s.cur == 1 || s.cur == 2) = true
    · have hcur : s.cur = 1 ∨ s.cur = 2 := by simpa using hA
      have hle2 : s.cur ≤ 2 := by rcases hcur with h' | h' <;> omega
      have hszA : s.cSize + 1 = s.cur := h1 (by omega)
      simp only [hA, if_true] at h
      have hne12 : (s.cur + 1 == markerL.length) = false := by
        simp [markerL]
        omega
      rw [hne12] at h
      simp only [Bool.false_eq_true, if_false] at h
      refine ih _ _ _ (by intro hc; simp at hc) (by intro _; simp; omega)
        (by simp; omega) ?_ h
      intro j hj2 hjlt
      simp only at hjlt ⊢
      have hjne : j ≠ s.cSize := by omega
      simp only [updFn, if_neg hjne]
      exact h3 j hj2 (by omega)
    · simp only [Bool.not_eq_true] at hA
      simp only [hA, Bool.false_eq_true, if_false] at h
      have hAne : s.cur ≠ 1 ∧ s.cur ≠ 2 := by
        constructor <;> intro hc <;> simp [hc] at hA
      by_cases hB : (b == markerL.getD s.cur 0) = true
      · have hb : b = markerL.getD s.cur 0 := by simpa using hB
        simp only [hB, if_true] at h
        by_cases hcur0 : s.cur = 0
        · have hsz0 : s.cSize = 0 := h0 hcur0
          rw [hcur0, hsz0] at h
          simp only [show ((0 + 1 : Nat) == 1) = true from rfl, if_true] at h
          rw [show ((0 + 1 : Nat) == markerL.length) = false from by decide] at h
          simp only [Bool.false_eq_true, if_false] at h
          refine ih _ _ _ (by intro hc; simp at hc) (by intro _; simp) (by simp) ?_ h
          intro j hj2 hjlt
          simp only at hjlt
          omega
        · have hge3 : 3 ≤ s.cur := by omega
          have hsz : s.cSize + 1 = s.cur := h1 hcur0
          rw [show (s.cur + 1 == 1) = false from by simp; omega] at h
          simp only [Bool.false_eq_true, if_false] at h
          by_cases h11 : s.cur = 11
          · rw [show (s.cur + 1 == markerL.length) = true from by simp [markerL, h11]] at h
            simp only [if_true, Prod.mk.injEq, Option.some.injEq] at h
            obtain ⟨hs', -⟩ := h
            subst hs'
            refine ⟨by simp [h11], by simp; omega, ?_⟩
            intro j hj2 hjlt
            simp only [updFn]
            by_cases hje : j = s.cSize
            · subst hje
              rw [if_pos rfl, hb]
              congr 1
              omega
            · rw [if_neg hje]
              exact h3 j hj2 (by omega)
          · rw [show (s.cur + 1 == markerL.length) = false from by simp [markerL]; omega] at h
            simp only [Bool.false_eq_true, if_false] at h
            refine ih _ _ _ (by intro hc; simp at hc) (by intro _; simp; omega)
              (by simp; omega) ?_ h
            intro j hj2 hjlt
            simp only at hjlt
            simp only [updFn]
            by_cases hje : j = s.cSize
            · subst hje
              rw [if_pos rfl, hb]
              congr 1
              omega
            · rw [if_neg hje]
              exact h3 j hj2 (by omega)
      · simp only [Bool.not_eq_true] at hB
        simp only [hB, Bool.false_eq_true, if_false] at h
        rw [show (((⟨s.buf, 0, 0⟩ : CarveS).cur == markerL.length)) = false from rfl] at h
        simp only [Bool.false_eq_true, if_false] at h
        refine ih _ _ _ (by intro _; simp) (by intro hc; simp at hc) (by simp) ?_ h
        intro j hj2 hjlt
        simp only at hjlt
        omega

/-- Claim C7: prepending garbage that never matches the marker-start byte
0x01 changes nothing — the write call behaves exactly as if fed only the
marker-and-payload portion — and whenever the carver confirms the
signature (from a fresh cursor), the accumulation buffer holds exactly
the 11 bytes after the leading 0x01: the two wildcard header bytes
followed by `0x00 "Attribut"`.  In particular no byte preceding the
marker and not the marker-start byte 0x01 itself is in the buffer when
decompression starts. -/
theorem c7_marker_carving :
    (∀ G rest, (∀ b ∈ G, b ≠ 1) →
      writeModel initS (G ++ rest) = writeModel initS rest) ∧
    (∀ buf input s' rest, carvVBA ⟨buf, 0, 0⟩ input = (s', some rest) →
      s'.cSize = 11 ∧ ∃ w1 w2,
        bufBytes s'.buf s'.cSize =
          [w1, w2, 0, 65, 116, 116, 114, 105, 98, 117, 116]) := by
  constructor
  · intro G rest hG
    rw [writeModel, writeModel]
    simp only [initS, Bool.false_eq_true, if_false]
    rw [carve_garbage G hG]
  · intro buf input s' rest h
    obtain ⟨hcur, hsz, hcontent⟩ :=
      carve_run input ⟨buf, 0, 0⟩ s' rest (by simp) (by simp) (by simp) (by simp) h
    refine ⟨hsz, s'.buf 0, s'.buf 1, ?_⟩
    rw [hsz]
    have hexp : bufBytes s'.buf 11 =
        [s'.buf 0, s'.buf 1, s'.buf 2, s'.buf 3, s'.buf 4, s'.buf 5, s'.buf 6,
         s'.buf 7, s'.buf 8, s'.buf 9, s'.buf 10] := rfl
    rw [hexp]
    have h2 := hcontent 2 (by omega) (by omega)
    have h3 := hcontent 3 (by omega) (by omega)
    have h4 := hcontent 4 (by omega) (by omega)
    have h5 := hcontent 5 (by omega) (by omega)
    have h6 := hcontent 6 (by omega) (by omega)
    have h7 := hcontent 7 (by omega) (by omega)
    have h8 := hcontent 8 (by omega) (by omega)
    have h9 := hcontent 9 (by omega) (by omega)
    have h10 := hcontent 10 (by omega) (by omega)
    rw [h2, h3, h4, h5, h6, h7, h8, h9, h10]
    rfl

/-- Witness for C7: ASCII garbage "GO" before the marker, and the carve
of a concrete marker instance. -/
theorem c7_marker_carving_witness :
    ((∀ b ∈ [71, 79], b ≠ 1) →
      writeModel initS ([71, 79] ++ [1, 8, 176, 0, 65, 116, 116, 114, 105, 98, 117, 116]) =
        writeModel initS [1, 8, 176, 0, 65, 116, 116, 114, 105, 98, 117, 116]) ∧
    (∀ s' rest,
      carvVBA ⟨fun _ => 0, 0, 0⟩ [1, 8, 176, 0, 65, 116, 116, 114, 105, 98, 117, 116] =
        (s', some rest) →
      s'.cSize = 11 ∧ ∃ w1 w2,
        bufBytes s'.buf s'.cSize =
          [w1, w2, 0, 65, 116, 116, 114, 105, 98, 117, 116]) :=
  ⟨fun hG => c7_marker_carving.1 [71, 79] [1, 8, 176, 0, 65, 116, 116, 114, 105, 98, 117, 116] hG,
   fun s' rest h => c7_marker_carving.2 (fun _ => 0)
     [1, 8, 176, 0, 65, 116, 116, 114, 105, 98, 117, 116] s' rest h⟩

/-! ## Buffer-content helpers for the streaming assembler -/

/-- The filled content of a `VState` accumulation buffer. -/
def bufList (s : VState) : List Nat := bufBytes s.cbuf s.cSize

theorem bufBytes_length (buf : Nat → Nat) (n : Nat) : (bufBytes buf n).length = n := by
  simp [bufBytes]

theorem bufBytes_getD (buf : Nat → Nat) (n i : Nat) (h : i < n) :
    (bufBytes buf n).getD i 0 = buf i := by
  rw [bufBytes, List.getD_eq_getElem?_getD, List.getElem?_map]
  rw [List.getElem?_range h]
  rfl

theorem bufBytes_writeRange (buf : Nat → Nat) (k : Nat) (l : List Nat) :
    bufBytes (writeRange buf k l) (k + l.length) = bufBytes buf k ++ l := by
  apply List.ext_getElem
  · simp [bufBytes]
  · intro i h1 h2
    simp only [bufBytes, List.getElem_map, List.getElem_range]
    by_cases hik : i < k
    · rw [List.getElem_append_left (by simpa [bufBytes] using hik)]
      simp only [bufBytes, List.getElem_map, List.getElem_range]
      rw [writeRange]
      rw [if_neg (by omega)]
    · rw [List.getElem_append_right (by simp [bufBytes]; omega)]
      rw [writeRange, if_pos (by constructor <;> simp [bufBytes] at h1 ⊢ <;> omega)]
      rw [List.getD_eq_getElem?_getD, List.getElem?_eq_getElem (by simp [bufBytes] at h1 ⊢; omega)]
      simp [bufBytes]

theorem bufBytes_shiftBuf (buf : Nat → Nat) (p c : Nat) :
    bufBytes (shiftBuf buf p c) c = (bufBytes buf (p + c)).drop p := by
  apply List.ext_getElem
  · simp [bufBytes]
  · intro i h1 h2
    simp only [bufBytes, List.getElem_map, List.getElem_range, List.getElem_drop]
    rw [shiftBuf, if_pos (by simpa [bufBytes] using h1)]

/-- For any bytes `b0 < 256`, the chunk-signature nibble of the
little-endian header `b0 + 256*b1` is the low nibble-shift of the second
byte: header bits 12-15 are bits 4-7 of byte 1. -/
theorem header_shift12 (b0 b1 : Nat) (hb0 : b0 < 256) :
    (b0 + 256 * b1) >>> 12 = b1 >>> 4 := by
  rw [Nat.shiftRight_eq_div_pow, Nat.shiftRight_eq_div_pow]
  omega

/-- Signature bits of a header byte in second position. -/
def sigOkByte (x : Nat) : Prop := (x >>> 4) &&& 7 = 3

/-! ## Well-formed chunks -/

/-- The canonical buffer holding exactly the bytes of `c` (zeros past the
end). -/
def chunkBuf (c : List Nat) : Nat → Nat := fun i => c.getD i 0

/-- The consumed count a standalone decode of `c` reports, if it
succeeds. -/
def chunkConsumed (c : List Nat) : Option Nat :=
  match uncompressChunk (chunkBuf c) c.length with
  | .ok n _ => some n
  | _ => none

/-- The decompressed bytes of a standalone decode of `c`. -/
def chunkOut (c : List Nat) : List Nat :=
  match uncompressChunk (chunkBuf c) c.length with
  | .ok _ out => out
  | _ => []

/-- A well-formed chunk: its declared size is its length, its bytes are
bytes, and a standalone decode succeeds consuming exactly its length
(so no token straddles the declared end and no access leaves the
buffers). -/
def ChunkWF (c : List Nat) : Prop :=
  chunkSize (chunkBuf c) = c.length ∧ (∀ b ∈ c, b < 256) ∧
  chunkConsumed c = some c.length

instance : DecidablePred ChunkWF := fun c => by
  unfold ChunkWF
  infer_instance

theorem chunkWF_decode {c : List Nat} (h : ChunkWF c) :
    uncompressChunk (chunkBuf c) c.length = .ok c.length (chunkOut c) := by
  obtain ⟨-, -, hc⟩ := h
  rw [chunkConsumed] at hc
  rw [chunkOut]
  split at hc
  · rename_i n out heq
    simp only [Option.some.injEq] at hc
    rw [heq, hc]
  · exact absurd hc (by simp)

theorem chunkWF_len {c : List Nat} (h : ChunkWF c) :
    3 ≤ c.length ∧ c.length ≤ 4098 := by
  obtain ⟨hsz, -, -⟩ := h
  rw [chunkSize] at hsz
  have : chunkHeader (chunkBuf c) &&& 0x0FFF < 4096 := by
    have := Nat.and_le_right (n := chunkHeader (chunkBuf c)) (m := 0x0FFF)
    omega
  omega

theorem chunkWF_sig {c : List Nat} (h : ChunkWF c) : chunkSig (chunkBuf c) = 3 := by
  have hd := chunkWF_decode h
  rw [uncompressChunk] at hd
  by_cases hs : chunkSig (chunkBuf c) ≠ 3
  · rw [if_pos hs] at hd
    exact absurd hd (by simp)
  · omega

theorem chunkWF_sigOkByte {c : List Nat} (h : ChunkWF c) : sigOkByte (c.getD 1 0) := by
  have hs := chunkWF_sig h
  have hlen := chunkWF_len h
  have hb0 : c.getD 0 0 < 256 := by
    have h0 : 0 < c.length := by omega
    rw [List.getD_eq_getElem?_getD, List.getElem?_eq_getElem h0]
    exact h.2.1 _ (List.getElem_mem h0)
  rw [chunkSig, chunkHeader] at hs
  rw [sigOkByte]
  rw [show chunkBuf c 0 = c.getD 0 0 from rfl, show chunkBuf c 1 = c.getD 1 0 from rfl] at hs
  rw [header_shift12 _ _ hb0] at hs
  exact hs

/-! ## Suffix independence of a successful chunk decode -/

theorem chunkHeader_congr {f g : Nat → Nat} (h0 : f 0 = g 0) (h1 : f 1 = g 1) :
    chunkHeader f = chunkHeader g := by
  rw [chunkHeader, chunkHeader, h0, h1]

/-- The group-loop cursor never moves backwards. -/
theorem processGroups_cc_le (cbuf : Nat → Nat) (endPos : Nat) :
    ∀ fuel cc out cc2 out2,
    processGroups cbuf endPos fuel cc out = .ok (cc2, out2) → cc ≤ cc2 := by
  intro fuel
  induction fuel with
  | zero =>
    intro cc out cc2 out2 h
    exact absurd h (by simp [processGroups])
  | succ fuel ih =>
    intro cc out cc2 out2 h
    rw [processGroups] at h
    by_cases hcc : cc < endPos
    · rw [if_pos hcc] at h
      split at h
      · rename_i ccI outI heq
        have h1 := processItems_cc_le cbuf endPos _ _ _ _ _ _ heq
        have h2 := ih _ _ _ _ h
        omega
      · exact absurd h (by simp)
    · rw [if_neg hcc] at h
      simp only [Except.ok.injEq, Prod.mk.injEq] at h
      omega

/-- A successful item run that does not overshoot the declared end reads
the compressed buffer only below `endPos`, so it computes identically
over any buffer that agrees there. -/
theorem processItems_agree {cb1 cb2 : Nat → Nat} {endPos : Nat}
    (hagree : ∀ i, i < endPos → cb1 i = cb2 i) :
    ∀ rem fb cc out cc2 out2,
    processItems cb1 endPos fb rem cc out = .ok (cc2, out2) → cc2 ≤ endPos →
    processItems cb2 endPos fb rem cc out = .ok (cc2, out2) := by
  intro rem
  induction rem with
  | zero => intro fb cc out cc2 out2 h _; exact h
  | succ rem ih =>
    intro fb cc out cc2 out2 h hle
    rw [processItems] at h
    rw [processItems]
    by_cases hcc : cc < endPos
    · rw [if_pos hcc] at h ⊢
      by_cases hbit : ((fb >>> (7 - rem)) &&& 1 == 0) = true
      · rw [if_pos hbit] at h ⊢
        by_cases hout : out.length < VBABuffSize
        · rw [if_pos hout] at h ⊢
          rw [← hagree cc hcc]
          exact ih _ _ _ _ _ h hle
        · rw [if_neg hout] at h
          exact absurd h (by simp)
      · rw [if_neg hbit] at h ⊢
        dsimp only at h ⊢
        by_cases hstrad : cc + 1 < endPos
        · rw [← hagree cc hcc, ← hagree (cc + 1) hstrad]
          split at h
          · rename_i hoffle
            split at h
            · rename_i heq
              rw [if_pos hoffle]
              exact ih _ _ _ _ _ h hle
            · exact absurd h (by simp)
          · exact absurd h (by simp)
        · exfalso
          split at h
          · split at h
            · have := processItems_cc_le cb1 endPos fb rem _ _ _ _ h
              omega
            · exact absurd h (by simp)
          · exact absurd h (by simp)
    · rw [if_neg hcc] at h ⊢
      exact ih _ _ _ _ _ h hle

/-- Suffix independence for the whole group loop. -/
theorem processGroups_agree {cb1 cb2 : Nat → Nat} {endPos : Nat}
    (hagree : ∀ i, i < endPos → cb1 i = cb2 i) :
    ∀ fuel cc out cc2 out2,
    processGroups cb1 endPos fuel cc out = .ok (cc2, out2) → cc2 ≤ endPos →
    processGroups cb2 endPos fuel cc out = .ok (cc2, out2) := by
  intro fuel
  induction fuel with
  | zero =>
    intro cc out cc2 out2 h _
    exact absurd h (by simp [processGroups])
  | succ fuel ih =>
    intro cc out cc2 out2 h hle
    rw [processGroups] at h
    rw [processGroups]
    by_cases hcc : cc < endPos
    · rw [if_pos hcc] at h ⊢
      rw [← hagree cc hcc]
      split at h
      · rename_i ccI outI heq
        have hccI : ccI ≤ cc2 := processGroups_cc_le cb1 endPos _ _ _ _ _ h
        rw [processItems_agree hagree _ _ _ _ _ _ heq (by omega)]
        exact ih _ _ _ _ h hle
      · exact absurd h (by simp)
    · rw [if_neg hcc] at h ⊢
      exact h

/-- Suffix independence for `uncompressChunk`: a decode that succeeds
without overshooting its declared size gives the same result over any
buffer that agrees below the declared size, with any fill level at least
that size. -/
theorem uncompressChunk_agree {cb1 cb2 : Nat → Nat} {cs1 cs2 n : Nat} {out : List Nat}
    (hagree : ∀ i, i < chunkSize cb1 → cb1 i = cb2 i)
    (h : uncompressChunk cb1 cs1 = .ok n out) (hn : n ≤ chunkSize cb1)
    (havail : chunkSize cb1 ≤ cs2) :
    uncompressChunk cb2 cs2 = .ok n out := by
  have hsz3 : 3 ≤ chunkSize cb1 := by rw [chunkSize]; omega
  have h0 : cb1 0 = cb2 0 := hagree 0 (by omega)
  have h1 : cb1 1 = cb2 1 := hagree 1 (by omega)
  have hhdr : chunkHeader cb1 = chunkHeader cb2 := chunkHeader_congr h0 h1
  have hsig : chunkSig cb1 = chunkSig cb2 := by rw [chunkSig, chunkSig, hhdr]
  have hsize : chunkSize cb1 = chunkSize cb2 := by rw [chunkSize, chunkSize, hhdr]
  have hflag : chunkFlag cb1 = chunkFlag cb2 := by rw [chunkFlag, chunkFlag, hhdr]
  rw [uncompressChunk] at h
  rw [uncompressChunk, ← hsig, ← hsize, ← hflag]
  by_cases hs : chunkSig cb1 ≠ 3
  · rw [if_pos hs] at h
    exact absurd h (by simp)
  rw [if_neg hs] at h ⊢
  by_cases hav : chunkSize cb1 > cs1
  · rw [if_pos hav] at h
    exact absurd h (by simp)
  rw [if_neg hav] at h
  rw [if_neg (by omega)]
  by_cases hf : (chunkFlag cb1 == 0) = true
  · rw [if_pos hf] at h ⊢
    by_cases hsz : chunkSize cb1 ≠ 4098
    · rw [if_pos hsz] at h
      exact absurd h (by simp)
    · rw [if_neg hsz] at h ⊢
      simp only [Except.ok.injEq, ChunkResult.ok.injEq] at h ⊢
      refine ⟨h.1, ?_⟩
      rw [← h.2]
      apply List.map_congr_left
      intro i hi
      simp only [List.mem_range] at hi
      exact (hagree (2 + i) (by omega)).symm
  · rw [if_neg hf] at h ⊢
    split at h
    · rename_i cc2 out2 heq
      have hle : cc2 ≤ chunkSize cb1 := by
        simp only [ChunkResult.ok.injEq] at h
        omega
      rw [processGroups_agree hagree _ _ _ _ _ heq hle]
      exact h
    · exact absurd h (by simp)
    · exact absurd h (by simp)

/-! ## The uncompress driver over well-formed buffered chunks -/

/-- `cSize = 1` is the only fill level at which the header read touches a
stale cell; this predicate records that the stale cell would still pass
the signature check.  It is maintained by all reachable states because
the cell then holds the second header byte of the previously decoded
chunk. -/
def StaleOk (s : VState) : Prop := s.cSize ≤ 1 → sigOkByte (s.cbuf 1)

/-- A buffered tail that is a proper prefix of some well-formed chunk
(or empty). -/
def TailWF (tail : List Nat) : Prop :=
  tail = [] ∨ ∃ c, ChunkWF c ∧ tail.length < c.length ∧ tail = c.take tail.length

theorem bufList_pt {s : VState} {l : List Nat} (h : bufList s = l) :
    s.cSize = l.length ∧ ∀ i, i < s.cSize → s.cbuf i = l.getD i 0 := by
  constructor
  · rw [← h, bufList, bufBytes_length]
  · intro i hi
    rw [← h, bufList, bufBytes_getD _ _ _ hi]

/-- Reading within the take-prefix. -/
theorem getD_take {l : List Nat} {n i : Nat} (h : i < n) (d : Nat) :
    (l.take n).getD i d = l.getD i d := by
  rw [List.getD_eq_getElem?_getD, List.getD_eq_getElem?_getD, List.getElem?_take_of_lt h]

theorem wf_byte_lt {c : List Nat} (h : ChunkWF c) {i : Nat} (hi : i < c.length) :
    c.getD i 0 < 256 := by
  rw [List.getD_eq_getElem?_getD, List.getElem?_eq_getElem hi]
  exact h.2.1 _ (List.getElem_mem hi)

/-- An insufficient-data step: with a quiet well-formed buffer state the
decode attempt returns `insufficient` (or the buffer is empty) and the
driver stops without touching anything. -/
theorem driver_quiet (s : VState) (tail : List Nat) (fuel : Nat)
    (htail : TailWF tail) (hbuf : bufList s = tail) (hstale : StaleOk s) :
    uncompressDriver (fuel + 1) s = (s, .ok) := by
  obtain ⟨hlen, hpt⟩ := bufList_pt hbuf
  by_cases h0 : s.cSize = 0
  · rw [uncompressDriver]
    rw [if_pos (by simp [h0])]
  · rcases htail with rfl | ⟨c, hwf, hplen, htake⟩
    · exfalso
      simp at hlen
      exact h0 hlen
    · have hcs : s.cSize = tail.length := hlen
      have hb0 : s.cbuf 0 = c.getD 0 0 := by
        rw [hpt 0 (by omega), htake, getD_take (by omega)]
      have hins : uncompressChunk s.cbuf s.cSize = .insufficient := by
        rw [uncompressChunk]
        by_cases h1 : s.cSize = 1
        · have hsig : chunkSig s.cbuf = 3 := by
            rw [chunkSig, chunkHeader, hb0,
              header_shift12 _ _ (wf_byte_lt hwf (by omega))]
            exact hstale (by omega)
          rw [if_neg (by omega)]
          rw [if_pos (by rw [chunkSize]; omega)]
        · have h2 : 2 ≤ s.cSize := by omega
          have hb1 : s.cbuf 1 = c.getD 1 0 := by
            rw [hpt 1 (by omega), htake, getD_take (by omega)]
          have hhdr : chunkHeader s.cbuf = chunkHeader (chunkBuf c) :=
            chunkHeader_congr (by rw [hb0]; rfl) (by rw [hb1]; rfl)
          have hsig : chunkSig s.cbuf = 3 := by
            rw [chunkSig, hhdr, ← chunkSig]
            exact chunkWF_sig hwf
          rw [if_neg (by omega)]
          rw [if_pos (by rw [chunkSize, hhdr, ← chunkSize, hwf.1]; omega)]
      rw [uncompressDriver]
      rw [if_neg (by simpa using h0), hins]

/-- The `uncompress` loop over a buffer holding a run of complete
well-formed chunks followed by a quiet tail: each chunk is decoded and
flushed in order, exactly once, and the loop ends in the quiet tail
state with the marker state untouched. -/
theorem driver_run : ∀ (chunks : List (List Nat)) (fuel : Nat) (s : VState) (tail : List Nat),
    (∀ c ∈ chunks, ChunkWF c) → TailWF tail →
    bufList s = chunks.flatten ++ tail → StaleOk s →
    chunks.length + 1 ≤ fuel →
    ∃ s', uncompressDriver fuel s = (s', .ok) ∧
      s'.output = s.output ++ (chunks.map chunkOut).flatten ∧
      bufList s' = tail ∧ s'.mcur = s.mcur ∧ s'.mfound = s.mfound ∧ StaleOk s' := by
  intro chunks
  induction chunks with
  | nil =>
    intro fuel s tail hwf htail hbuf hstale hfuel
    obtain ⟨f, rfl⟩ : ∃ f, fuel = f + 1 := ⟨fuel - 1, by omega⟩
    exact ⟨s, driver_quiet s tail f htail (by simpa using hbuf) hstale, by simp,
      by simpa using hbuf, rfl, rfl, hstale⟩
  | cons C rest ih =>
    intro fuel s tail hwf htail hbuf hstale hfuel
    obtain ⟨f, rfl⟩ : ∃ f, fuel = f + 1 := ⟨fuel - 1, by omega⟩
    have hCwf : ChunkWF C := hwf C (by simp)
    have hrest : ∀ c ∈ rest, ChunkWF c := fun c hc => hwf c (by simp [hc])
    have hC3 : 3 ≤ C.length := (chunkWF_len hCwf).1
    have hbuf' : bufList s = C ++ (rest.flatten ++ tail) := by
      rw [hbuf]
      simp [List.append_assoc]
    obtain ⟨hlen, hpt⟩ := bufList_pt hbuf'
    have hszlen : s.cSize = C.length + (rest.flatten.length + tail.length) := by
      rw [hlen]; simp
    have hagree : ∀ i, i < chunkSize (chunkBuf C) → chunkBuf C i = s.cbuf i := by
      intro i hi
      rw [hCwf.1] at hi
      rw [hpt i (by omega), List.getD_append _ _ _ _ hi]
      rfl
    have hdec : uncompressChunk s.cbuf s.cSize = .ok C.length (chunkOut C) :=
      uncompressChunk_agree hagree (chunkWF_decode hCwf) (by rw [hCwf.1])
        (by rw [hCwf.1]; omega)
    have hkey : uncompressDriver (f + 1) s =
        uncompressDriver f ⟨shiftBuf s.cbuf C.length (s.cSize - C.length),
          s.cSize - C.length, s.mcur, s.mfound, s.output ++ chunkOut C⟩ := by
      rw [uncompressDriver]
      rw [if_neg (by simp; omega), hdec]
      dsimp only
      rw [if_neg (by simp; omega)]
    have hbuf2 : bufList (⟨shiftBuf s.cbuf C.length (s.cSize - C.length),
        s.cSize - C.length, s.mcur, s.mfound, s.output ++ chunkOut C⟩ : VState) =
        rest.flatten ++ tail := by
      rw [bufList]
      dsimp only
      rw [bufBytes_shiftBuf]
      rw [show C.length + (s.cSize - C.length) = s.cSize by omega]
      rw [show bufBytes s.cbuf s.cSize = bufList s from rfl, hbuf']
      rw [List.drop_left]
    have hstale2 : StaleOk (⟨shiftBuf s.cbuf C.length (s.cSize - C.length),
        s.cSize - C.length, s.mcur, s.mfound, s.output ++ chunkOut C⟩ : VState) := by
      intro h1
      dsimp only at h1 ⊢
      rw [shiftBuf]
      rw [if_neg (by omega)]
      have : s.cbuf 1 = C.getD 1 0 := by
        rw [hpt 1 (by omega), List.getD_append _ _ _ _ (by omega)]
      rw [this]
      exact chunkWF_sigOkByte hCwf
    obtain ⟨s', hrun, hout, hbl, hmc, hmf, hst⟩ :=
      ih f ⟨shiftBuf s.cbuf C.length (s.cSize - C.length),
        s.cSize - C.length, s.mcur, s.mfound, s.output ++ chunkOut C⟩ tail
        hrest htail hbuf2 hstale2 (by simp at hfuel ⊢; omega)
    refine ⟨s', by rw [hkey]; exact hrun, ?_, hbl, hmc, hmf, hst⟩
    rw [hout]
    simp [List.append_assoc]

/-- Claim C10: over a buffer holding complete well-formed chunks followed
by a quiet tail, the `uncompress` loop flushes each chunk's decompressed
bytes downstream exactly once, in chunk order — the final output is the
input output extended by the concatenation of the per-chunk decodes,
each appended immediately after its chunk decodes and before the next
chunk is attempted — and it never re-flushes: re-running the loop on the
resulting state (the consumed bytes having been shifted out) emits
nothing and leaves the state unchanged. -/
theorem c10_flush_once (chunks : List (List Nat)) (fuel : Nat) (s : VState) (tail : List Nat)
    (hwf : ∀ c ∈ chunks, ChunkWF c) (htail : TailWF tail)
    (hbuf : bufList s = chunks.flatten ++ tail) (hstale : StaleOk s)
    (hfuel : chunks.length + 1 ≤ fuel) :
    ∃ s', uncompressDriver fuel s = (s', .ok) ∧
      s'.output = s.output ++ (chunks.map chunkOut).flatten ∧
      bufList s' = tail ∧
      ∀ fuel2, uncompressDriver (fuel2 + 1) s' = (s', .ok) := by
  obtain ⟨s', h1, h2, h3, _, _, h6⟩ :=
    driver_run chunks fuel s tail hwf htail hbuf hstale hfuel
  exact ⟨s', h1, h2, h3, fun fuel2 => driver_quiet s' tail fuel2 htail h3 h6⟩

/-- Witness for C10: the "Attribut" chunk, fully buffered, is flushed
once and a re-run emits nothing. -/
theorem c10_flush_once_witness :
    ∃ s', uncompressDriver 12
        ⟨fun i => [8, 176, 0, 65, 116, 116, 114, 105, 98, 117, 116].getD i 0, 11, 12, true, []⟩ =
        (s', .ok) ∧
      s'.output = [] ++ ([[8, 176, 0, 65, 116, 116, 114, 105, 98, 117, 116]].map chunkOut).flatten ∧
      bufList s' = [] ∧
      ∀ fuel2, uncompressDriver (fuel2 + 1) s' = (s', .ok) :=
  c10_flush_once [[8, 176, 0, 65, 116, 116, 114, 105, 98, 117, 116]] 12
    ⟨fun i => [8, 176, 0, 65, 116, 116, 114, 105, 98, 117, 116].getD i 0, 11, 12, true, []⟩ []
    (by decide) (Or.inl rfl) (by decide)
    (by intro h; exact absurd h (by decide)) (by decide)

/-! ## Splitting a stream prefix into whole chunks and a partial tail -/

theorem length_le_flatten_length (l : List (List Nat)) (h : ∀ c ∈ l, 0 < c.length) :
    l.length ≤ l.flatten.length := by
  induction l with
  | nil => simp
  | cons c cs ih =>
    simp only [List.flatten_cons, List.length_append, List.length_cons]
    have h1 := h c (by simp)
    have h2 := ih (fun c hc => h c (by simp [hc]))
    omega

/-- Any prefix of a chunk concatenation splits into a run of whole
chunks followed by a proper prefix of the next chunk. -/
theorem flatten_decompose (chunks : List (List Nat)) :
    ∀ n, (∀ c ∈ chunks, 0 < c.length) → n ≤ chunks.flatten.length →
    ∃ done rem2 tail, chunks = done ++ rem2 ∧
      chunks.flatten.take n = done.flatten ++ tail ∧
      ((rem2 = [] ∧ tail = []) ∨
       (∃ c cs, rem2 = c :: cs ∧ tail.length < c.length ∧ tail = c.take tail.length)) := by
  induction chunks with
  | nil =>
    intro n _ hn
    simp at hn
    subst hn
    exact ⟨[], [], [], rfl, rfl, Or.inl ⟨rfl, rfl⟩⟩
  | cons C cs ih =>
    intro n hpos hn
    by_cases hcase : n < C.length
    · refine ⟨[], C :: cs, C.take n, rfl, ?_, Or.inr ⟨C, cs, rfl, ?_, ?_⟩⟩
      · rw [List.flatten_cons, List.take_append_eq_append_take,
          show n - C.length = 0 by omega]
        simp
      · rw [List.length_take]
        omega
      · rw [List.length_take]
        congr 1
        omega
    · have hC : C.length ≤ n := by omega
      have hn' : n - C.length ≤ cs.flatten.length := by
        rw [List.flatten_cons, List.length_append] at hn
        omega
      obtain ⟨done, rem2, tail, hsplit, htake, hdisj⟩ :=
        ih (n - C.length) (fun c hc => hpos c (by simp [hc])) hn'
      refine ⟨C :: done, rem2, tail, by rw [List.cons_append, hsplit], ?_, hdisj⟩
      rw [List.flatten_cons, List.take_append_eq_append_take,
        List.take_of_length_le hC, List.flatten_cons, List.append_assoc, htake]

/-! ## One ingest iteration: copy a batch, run the driver -/

/-- Copying the next `taken` bytes of the stream into the buffer and
running the `uncompress` driver decodes exactly the chunks that are now
complete, in order, and ends quietly in a proper-prefix tail state. -/
theorem step_copy_drive (s : VState) (taken future : List Nat) (rem : List (List Nat))
    (hwf : ∀ c ∈ rem, ChunkWF c)
    (hsplit : rem.flatten = bufList s ++ taken ++ future)
    (hstale : StaleOk s) :
    ∃ s' done rem2,
      uncompressDriver (s.cSize + taken.length + 1)
        ⟨writeRange s.cbuf s.cSize taken, s.cSize + taken.length,
         s.mcur, s.mfound, s.output⟩ = (s', .ok) ∧
      rem = done ++ rem2 ∧ (∀ c ∈ rem2, ChunkWF c) ∧
      rem2.flatten = bufList s' ++ future ∧
      s'.output = s.output ++ (done.map chunkOut).flatten ∧
      s'.mcur = s.mcur ∧ s'.mfound = s.mfound ∧
      StaleOk s' ∧ s'.cSize + 1 ≤ VBABuffSize ∧
      ((rem2 = [] ∧ bufList s' = []) ∨
       ∃ c cs, rem2 = c :: cs ∧ (bufList s').length < c.length) := by
  have hpos : ∀ c ∈ rem, 0 < c.length := by
    intro c hc
    have := (chunkWF_len (hwf c hc)).1
    omega
  have hn : s.cSize + taken.length ≤ rem.flatten.length := by
    rw [hsplit]
    simp [bufList, bufBytes_length]
  obtain ⟨done, rem2, tail, hsplit2, htake, hdisj⟩ :=
    flatten_decompose rem (s.cSize + taken.length) hpos hn
  have htake2 : rem.flatten.take (s.cSize + taken.length) = bufList s ++ taken := by
    rw [hsplit]
    exact List.take_left' (by simp [bufList, bufBytes_length])
  set s1 : VState := ⟨writeRange s.cbuf s.cSize taken, s.cSize + taken.length,
    s.mcur, s.mfound, s.output⟩ with hs1
  have hbuf1 : bufList s1 = done.flatten ++ tail := by
    rw [bufList, hs1]
    dsimp only
    rw [bufBytes_writeRange]
    rw [show bufBytes s.cbuf s.cSize = bufList s from rfl]
    rw [← htake2, htake]
  have htail : TailWF tail := by
    rcases hdisj with ⟨-, rfl⟩ | ⟨c, cs2, hrem2, hlt, htl⟩
    · exact Or.inl rfl
    · exact Or.inr ⟨c, hwf c (by rw [hsplit2, hrem2]; simp), hlt, htl⟩
  have hstale1 : StaleOk s1 := by
    intro h1
    rw [hs1] at h1 ⊢
    dsimp only at h1 ⊢
    rw [writeRange]
    rw [if_neg (by omega)]
    exact hstale (by omega)
  have hdone : ∀ c ∈ done, ChunkWF c := by
    intro c hc
    exact hwf c (by rw [hsplit2]; simp [hc])
  have hfuel : done.length + 1 ≤ s.cSize + taken.length + 1 := by
    have h1 := length_le_flatten_length done (fun c hc => hpos c (by rw [hsplit2]; simp [hc]))
    have h2 : done.flatten.length + tail.length = s.cSize + taken.length := by
      have := congrArg List.length htake
      simp only [List.length_take, List.length_append] at this
      rw [Nat.min_eq_left hn] at this
      omega
    omega
  obtain ⟨s', hrun, hout, hbl, hmc, hmf, hst⟩ :=
    driver_run done (s.cSize + taken.length + 1) s1 tail hdone htail hbuf1 hstale1 hfuel
  refine ⟨s', done, rem2, hrun, hsplit2, fun c hc => hwf c (by rw [hsplit2]; simp [hc]),
    ?_, by rw [hout], by rw [hmc], by rw [hmf], hst, ?_, ?_⟩
  · have hflat : done.flatten ++ rem2.flatten = rem.flatten := by
      rw [hsplit2]
      simp
    have : done.flatten ++ rem2.flatten = done.flatten ++ (tail ++ future) := by
      rw [hflat, hsplit, ← htake2, htake]
      simp [List.append_assoc]
    have h2 := List.append_cancel_left this
    rw [h2, hbl]
  · rcases htail with rfl | ⟨c, hcwf, hlt, -⟩
    · have h0 := (bufList_pt hbl).1
      simp at h0
      unfold VBABuffSize
      omega
    · have h1 := (bufList_pt hbl).1
      have h2 := (chunkWF_len hcwf).2
      unfold VBABuffSize
      omega
  · rcases hdisj with ⟨hr2, rfl⟩ | ⟨c, cs2, hrem2, hlt, -⟩
    · exact Or.inl ⟨hr2, hbl⟩
    · refine Or.inr ⟨c, cs2, hrem2, ?_⟩
      rw [hbl]
      exact hlt

/-! ## The Write ingest loop -/

/-- The ingest loop of `Write` consumes its input, decoding and flushing
every chunk that completes, in order; it ends quietly with the partial
tail of the next chunk buffered. -/
theorem ingest_run : ∀ (fuel : Nat) (pending : List Nat) (s : VState) (rem : List (List Nat)),
    (∀ c ∈ rem, ChunkWF c) →
    rem.flatten = bufList s ++ pending →
    StaleOk s → s.cSize + 1 ≤ VBABuffSize →
    pending.length + 1 ≤ fuel →
    ∃ s' done rem2, ingestLoop fuel s pending = (s', .ok) ∧
      rem = done ++ rem2 ∧ (∀ c ∈ rem2, ChunkWF c) ∧
      rem2.flatten = bufList s' ∧
      s'.output = s.output ++ (done.map chunkOut).flatten ∧
      s'.mcur = s.mcur ∧ s'.mfound = s.mfound ∧
      StaleOk s' ∧ s'.cSize + 1 ≤ VBABuffSize ∧
      (pending = [] → s' = s ∧ done = [] ∧ rem2 = rem) ∧
      (pending ≠ [] →
        (rem2 = [] ∧ bufList s' = []) ∨
        ∃ c cs, rem2 = c :: cs ∧ (bufList s').length < c.length) := by
  intro fuel
  induction fuel with
  | zero =>
    intro pending s rem _ _ _ _ hf
    omega
  | succ fuel ih =>
    intro pending s rem hwf hsplit hstale hcap hfuel
    by_cases hpend : pending.length = 0
    · have : pending = [] := List.length_eq_zero.mp hpend
      subst this
      rw [ingestLoop]
      rw [if_pos (by simp)]
      exact ⟨s, [], rem, rfl, rfl, hwf, by simpa using hsplit, by simp, rfl, rfl,
        hstale, hcap, fun _ => ⟨rfl, rfl, rfl⟩, fun hne => absurd rfl hne⟩
    · rw [ingestLoop]
      rw [if_neg (by simpa using hpend)]
      dsimp only
      set n := min (VBABuffSize - s.cSize) pending.length with hn
      have havail : 1 ≤ VBABuffSize - s.cSize := by
        unfold VBABuffSize at hcap ⊢
        omega
      have hn1 : 1 ≤ n := by
        rw [hn]
        exact le_min havail (by omega)
      have hnle : n ≤ pending.length := by rw [hn]; exact min_le_right _ _
      have hnavail : n ≤ VBABuffSize - s.cSize := by rw [hn]; exact min_le_left _ _
      have hlen_take : (pending.take n).length = n := by
        rw [List.length_take]
        exact Nat.min_eq_left hnle
      have hsplit2 : rem.flatten = bufList s ++ pending.take n ++ pending.drop n := by
        rw [List.append_assoc, List.take_append_drop]
        exact hsplit
      obtain ⟨s2, done1, rem2, hdrive, hrem, hwf2, hsplit3, hout2, hmc2, hmf2, hstale2,
        hcap3, hprop2⟩ :=
        step_copy_drive s (pending.take n) (pending.drop n) rem hwf hsplit2 hstale
      rw [hlen_take] at hdrive
      rw [hdrive]
      obtain ⟨s', done2, rem3, hloop, hrem2, hwf3, hsplit4, hout3, hmc3, hmf3, hstale3,
        hcap4, hnil2, hprop3⟩ :=
        ih (pending.drop n) s2 rem2 hwf2 (by rw [hsplit3]) hstale2 hcap3
          (by rw [List.length_drop]; omega)
      refine ⟨s', done1 ++ done2, rem3, hloop, ?_, hwf3, hsplit4, ?_, ?_, ?_, hstale3, hcap4,
        ?_, ?_⟩
      · rw [hrem, hrem2, List.append_assoc]
      · rw [hout3, hout2]
        simp [List.append_assoc]
      · rw [hmc3, hmc2]
      · rw [hmf3, hmf2]
      · intro hp
        exact absurd (congrArg List.length hp) (by simpa using hpend)
      · intro _
        by_cases hdropnil : pending.drop n = []
        · obtain ⟨hs2, hd2, hr3⟩ := hnil2 hdropnil
          subst hs2
          rw [hr3]
          exact hprop2
        · exact hprop3 hdropnil

/-! ## Carving the stream head -/

/-- The accumulation buffer the carver builds while matching a marker
instance `0x01 w1 w2 0x00 "Attribut"`: the 0x01 is written at cell 0 but
immediately overwritten by the first wildcard byte, the remaining 10
marker bytes fill cells 1-10. -/
def carveChain (buf : Nat → Nat) (w1 w2 : Nat) : Nat → Nat :=
  updFn (updFn (updFn (updFn (updFn (updFn (updFn (updFn (updFn (updFn (updFn
    (updFn buf 0 1) 0 w1) 1 w2) 2 0) 3 65) 4 116) 5 116) 6 114) 7 105) 8 98) 9 117) 10 116

/-- Running the carver from an idle state over a marker instance
followed by `rest` confirms the marker after 12 bytes, leaves the 11
marker-tail bytes buffered, and hands `rest` back. -/
theorem carve_stream (buf : Nat → Nat) (w1 w2 : Nat) (rest : List Nat) :
    carvVBA ⟨buf, 0, 0⟩
        (1 :: w1 :: w2 :: 0 :: 65 :: 116 :: 116 :: 114 :: 105 :: 98 :: 117 :: 116 :: rest) =
      (⟨carveChain buf w1 w2, 11, 12⟩, some rest) := by
  simp [carvVBA, markerL, carveChain]

theorem carveChain_bytes (buf : Nat → Nat) (w1 w2 : Nat) :
    ∀ j, j < 11 → carveChain buf w1 w2 j =
      [w1, w2, 0, 65, 116, 116, 114, 105, 98, 117, 116].getD j 0 := by
  intro j hj
  interval_cases j <;> simp [carveChain, updFn]

theorem bufBytes_eq_pointwise (buf : Nat → Nat) (l : List Nat)
    (h : ∀ j, j < l.length → buf j = l.getD j 0) : bufBytes buf l.length = l := by
  apply List.ext_getElem
  · simp [bufBytes]
  · intro i h1 h2
    simp only [bufBytes, List.getElem_map, List.getElem_range]
    rw [h i (by simpa [bufBytes] using h1)]
    rw [List.getD_eq_getElem?_getD, List.getElem?_eq_getElem h2]
    rfl

/-! ## A single Write call over a whole stream -/

/-- Feeding the entire stream — the 0x01 marker byte followed by the
concatenation of well-formed chunks, whose head bytes form the marker
tail — in one `Write` call: the marker is carved, and unless the stream
ends exactly at the marker (leaving the first chunk buffered but not yet
decodable), every chunk is decoded and flushed in order with a nil
error. -/
theorem writeModel_stream (chunks : List (List Nat)) (w1 w2 : Nat) (rest : List Nat)
    (hwf : ∀ c ∈ chunks, ChunkWF c)
    (hflat : chunks.flatten =
      w1 :: w2 :: 0 :: 65 :: 116 :: 116 :: 114 :: 105 :: 98 :: 117 :: 116 :: rest) :
    ∃ s', writeModel initS (1 :: chunks.flatten) = (s', .ok) ∧
      (rest = [] → s'.output = []) ∧
      (rest ≠ [] → s'.output = (chunks.map chunkOut).flatten) := by
  have hwm : writeModel initS (1 :: chunks.flatten) =
      ingestLoop (2 * rest.length + 2)
        ⟨carveChain (fun _ => 0) w1 w2, 11, 12, true, []⟩ rest := by
    rw [writeModel]
    rw [if_neg (by decide)]
    rw [show (⟨initS.cbuf, initS.cSize, initS.mcur⟩ : CarveS) = ⟨fun _ => 0, 0, 0⟩ from rfl]
    rw [hflat, carve_stream]
    rfl
  rw [hwm]
  set s0 : VState := ⟨carveChain (fun _ => 0) w1 w2, 11, 12, true, []⟩ with hs0
  have hbuf0 : bufList s0 = [w1, w2, 0, 65, 116, 116, 114, 105, 98, 117, 116] := by
    rw [bufList, hs0]
    exact bufBytes_eq_pointwise _ [w1, w2, 0, 65, 116, 116, 114, 105, 98, 117, 116]
      (fun j hj => carveChain_bytes (fun _ => 0) w1 w2 j (by simpa using hj))
  have hsplit0 : chunks.flatten = bufList s0 ++ rest := by
    rw [hbuf0, hflat]
    rfl
  have hstale0 : StaleOk s0 := by
    intro h
    rw [hs0] at h
    simp at h
  have hcap0 : s0.cSize + 1 ≤ VBABuffSize := by
    rw [hs0]
    show (11 : Nat) + 1 ≤ VBABuffSize
    decide
  obtain ⟨s', done, rem2, hloop, hrem, hwf2, hflat2, hout, hmc, hmf, hst, hcap,
    hnil, hprop⟩ :=
    ingest_run (2 * rest.length + 2) rest s0 chunks hwf hsplit0 hstale0 hcap0 (by omega)
  refine ⟨s', hloop, ?_, ?_⟩
  · intro hrest
    subst hrest
    obtain ⟨hs', -, -⟩ := hnil rfl
    rw [hs', hs0]
  · intro hrest
    have hrem2 : rem2 = [] := by
      rcases hprop hrest with ⟨h1, -⟩ | ⟨c, cs, hr2, hlt⟩
      · exact h1
      · exfalso
        have hlen : rem2.flatten.length = (bufList s').length :=
          congrArg List.length hflat2
        have hwfc : ChunkWF c := hwf2 c (by rw [hr2]; simp)
        have h3 := (chunkWF_len hwfc).1
        rw [hr2] at hlen
        simp only [List.flatten_cons, List.length_append] at hlen
        omega
    subst hrem2
    rw [hout]
    simp only [List.append_nil] at hrem
    rw [← hrem, hs0]
    rfl

/-! ## Single-byte Write calls -/

/-- One single-byte `Write` call in the post-marker phase: the byte is
buffered and the driver decodes whatever chunk it completes. -/
theorem feed1_step (s : VState) (x : Nat) (future : List Nat) (rem : List (List Nat))
    (hmf : s.mfound = true) (hwf : ∀ c ∈ rem, ChunkWF c)
    (hsplit : rem.flatten = bufList s ++ x :: future)
    (hstale : StaleOk s) (hcap : s.cSize + 1 ≤ VBABuffSize) :
    ∃ s' done rem2,
      feed1 s x = s' ∧
      rem = done ++ rem2 ∧ (∀ c ∈ rem2, ChunkWF c) ∧
      rem2.flatten = bufList s' ++ future ∧
      s'.output = s.output ++ (done.map chunkOut).flatten ∧
      s'.mfound = true ∧ StaleOk s' ∧ s'.cSize + 1 ≤ VBABuffSize ∧
      ((rem2 = [] ∧ bufList s' = []) ∨
       ∃ c cs, rem2 = c :: cs ∧ (bufList s').length < c.length) := by
  have hsplit' : rem.flatten = bufList s ++ [x] ++ future := by
    rw [hsplit, List.append_assoc]
    rfl
  obtain ⟨s2, done1, rem2, hdrive, hrem, hwf2, hsplit3, hout2, hmc2, hmf2, hstale2,
    hcap3, hprop2⟩ := step_copy_drive s [x] future rem hwf hsplit' hstale
  rw [show List.length [x] = 1 from rfl] at hdrive
  have hfeed : feed1 s x = s2 := by
    rw [feed1, writeModel, if_pos hmf, ingestLoop]
    rw [if_neg (by simp)]
    dsimp only
    rw [show List.length [x] = 1 from rfl]
    rw [show min (VBABuffSize - s.cSize) 1 = 1 from
      Nat.min_eq_right (by unfold VBABuffSize at hcap ⊢; omega)]
    rw [show List.take 1 [x] = [x] from rfl]
    rw [hdrive]
    rfl
  exact ⟨s2, done1, rem2, hfeed, hrem, hwf2, hsplit3, hout2, by rw [hmf2, hmf],
    hstale2, hcap3, hprop2⟩

/-- Folding single-byte `Write` calls over the rest of the stream decodes
and flushes exactly the chunks that complete, in order. -/
theorem fold_feed_run : ∀ (pending : List Nat) (s : VState) (rem : List (List Nat)),
    s.mfound = true → (∀ c ∈ rem, ChunkWF c) →
    rem.flatten = bufList s ++ pending →
    StaleOk s → s.cSize + 1 ≤ VBABuffSize →
    ∃ s' done rem2, List.foldl feed1 s pending = s' ∧
      rem = done ++ rem2 ∧ (∀ c ∈ rem2, ChunkWF c) ∧
      rem2.flatten = bufList s' ∧
      s'.output = s.output ++ (done.map chunkOut).flatten ∧
      s'.mfound = true ∧ StaleOk s' ∧ s'.cSize + 1 ≤ VBABuffSize ∧
      (pending = [] → s' = s ∧ done = [] ∧ rem2 = rem) ∧
      (pending ≠ [] →
        (rem2 = [] ∧ bufList s' = []) ∨
        ∃ c cs, rem2 = c :: cs ∧ (bufList s').length < c.length) := by
  intro pending
  induction pending with
  | nil =>
    intro s rem hmf hwf hsplit hstale hcap
    exact ⟨s, [], rem, rfl, rfl, hwf, by simpa using hsplit, by simp, hmf, hstale, hcap,
      fun _ => ⟨rfl, rfl, rfl⟩, fun hne => absurd rfl hne⟩
  | cons x xs ih =>
    intro s rem hmf hwf hsplit hstale hcap
    obtain ⟨s2, done1, rem2, hfeed, hrem, hwf2, hsplit3, hout2, hmf2, hstale2, hcap3,
      hprop2⟩ := feed1_step s x xs rem hmf hwf hsplit hstale hcap
    rw [List.foldl_cons, hfeed]
    obtain ⟨s', done2, rem3, hfold, hrem2, hwf3, hsplit4, hout3, hmf3, hstale3, hcap4,
      hnil2, hprop3⟩ := ih s2 rem2 hmf2 hwf2 (by rw [hsplit3]) hstale2 hcap3
    refine ⟨s', done1 ++ done2, rem3, hfold, ?_, hwf3, hsplit4, ?_, hmf3, hstale3, hcap4,
      ?_, ?_⟩
    · rw [hrem, hrem2, List.append_assoc]
    · rw [hout3, hout2]
      simp [List.append_assoc]
    · intro hp
      exact absurd hp (by simp)
    · intro _
      by_cases hxs : xs = []
      · obtain ⟨hs2, hd2, hr3⟩ := hnil2 hxs
        subst hs2
        rw [hr3]
        exact hprop2
      · exact hprop3 hxs

/-- Feeding the 12 marker bytes one at a time reaches exactly the same
state as carving them inside a single call: the cursor survives across
single-byte `Write` calls. -/
theorem fold_feed_marker (w1 w2 : Nat) :
    List.foldl feed1 initS [1, w1, w2, 0, 65, 116, 116, 114, 105, 98, 117, 116] =
      ⟨carveChain (fun _ => 0) w1 w2, 11, 12, true, []⟩ := by
  simp [feed1, writeModel, carvVBA, markerL, carveChain, ingestLoop, initS]

/-- Claim C8: for a valid compressed stream (the 0x01 marker byte, then a
concatenation of well-formed chunks whose head matches the marker tail),
delivering the stream in single-byte `Write` calls produces byte-identical
decompressed output to delivering it in one `Write` call — the marker
cursor and all buffered state persist across calls — and (as soon as any
byte follows the marker) that common output is the concatenation of the
per-chunk decodes. -/
theorem c8_partial_write_equiv (chunks : List (List Nat)) (w1 w2 : Nat) (rest : List Nat)
    (hwf : ∀ c ∈ chunks, ChunkWF c)
    (hflat : chunks.flatten =
      w1 :: w2 :: 0 :: 65 :: 116 :: 116 :: 114 :: 105 :: 98 :: 117 :: 116 :: rest) :
    (writeModel initS (1 :: chunks.flatten)).1.output =
      (List.foldl feed1 initS (1 :: chunks.flatten)).output ∧
    (rest ≠ [] →
      (writeModel initS (1 :: chunks.flatten)).1.output = (chunks.map chunkOut).flatten) := by
  obtain ⟨sA, hwA, hA0, hA1⟩ := writeModel_stream chunks w1 w2 rest hwf hflat
  set s0 : VState := ⟨carveChain (fun _ => 0) w1 w2, 11, 12, true, []⟩ with hs0
  have hbuf0 : bufList s0 = [w1, w2, 0, 65, 116, 116, 114, 105, 98, 117, 116] := by
    rw [bufList, hs0]
    exact bufBytes_eq_pointwise _ [w1, w2, 0, 65, 116, 116, 114, 105, 98, 117, 116]
      (fun j hj => carveChain_bytes (fun _ => 0) w1 w2 j (by simpa using hj))
  have hsplit0 : chunks.flatten = bufList s0 ++ rest := by
    rw [hbuf0, hflat]
    rfl
  have hstale0 : StaleOk s0 := by
    intro h
    rw [hs0] at h
    simp at h
  have hcap0 : s0.cSize + 1 ≤ VBABuffSize := by
    rw [hs0]
    show (11 : Nat) + 1 ≤ VBABuffSize
    decide
  have hfold12 : List.foldl feed1 initS (1 :: chunks.flatten) = List.foldl feed1 s0 rest := by
    rw [hflat]
    rw [show (1 :: w1 :: w2 :: 0 :: 65 :: 116 :: 116 :: 114 :: 105 :: 98 :: 117 :: 116 :: rest)
        = [1, w1, w2, 0, 65, 116, 116, 114, 105, 98, 117, 116] ++ rest from rfl]
    rw [List.foldl_append, fold_feed_marker]
  obtain ⟨sB, doneB, rem2B, hfoldB, hremB, hwfB, hflatB, houtB, hmfB, hstB, hcapB,
    hnilB, hpropB⟩ := fold_feed_run rest s0 chunks rfl hwf hsplit0 hstale0 hcap0
  constructor
  · rw [hwA, hfold12, hfoldB]
    by_cases hrest : rest = []
    · obtain ⟨hsB, -, -⟩ := hnilB hrest
      rw [hA0 hrest, hsB, hs0]
    · rw [hA1 hrest, houtB]
      have hrem2B : rem2B = [] := by
        rcases hpropB hrest with ⟨h1, -⟩ | ⟨c, cs, hr2, hlt⟩
        · exact h1
        · exfalso
          have hlen : rem2B.flatten.length = (bufList sB).length :=
            congrArg List.length hflatB
          have hwfc : ChunkWF c := hwfB c (by rw [hr2]; simp)
          have h3 := (chunkWF_len hwfc).1
          rw [hr2] at hlen
          simp only [List.flatten_cons, List.length_append] at hlen
          omega
      subst hrem2B
      simp only [List.append_nil] at hremB
      rw [← hremB, hs0]
      rfl
  · intro h
    rw [hwA]
    exact hA1 h

/-- Witness for C8: a two-chunk stream — the "Attribut" chunk then a
compressed chunk expanding to eleven 66 bytes. -/
theorem c8_partial_write_equiv_witness :
    ((writeModel initS
        (1 :: [[8, 176, 0, 65, 116, 116, 114, 105, 98, 117, 116],
               [3, 176, 2, 66, 7, 0]].flatten)).1.output =
      (List.foldl feed1 initS
        (1 :: [[8, 176, 0, 65, 116, 116, 114, 105, 98, 117, 116],
               [3, 176, 2, 66, 7, 0]].flatten)).output) ∧
    ([3, 176, 2, 66, 7, 0] ≠ ([] : List Nat) →
      (writeModel initS
        (1 :: [[8, 176, 0, 65, 116, 116, 114, 105, 98, 117, 116],
               [3, 176, 2, 66, 7, 0]].flatten)).1.output =
      ([[8, 176, 0, 65, 116, 116, 114, 105, 98, 117, 116],
        [3, 176, 2, 66, 7, 0]].map chunkOut).flatten) :=
  c8_partial_write_equiv
    [[8, 176, 0, 65, 116, 116, 114, 105, 98, 117, 116], [3, 176, 2, 66, 7, 0]]
    8 176 [3, 176, 2, 66, 7, 0] (by decide) (by decide)

end GoVBA
